import Mathlib

/-!
# TranslationMethods: the growable `int` vector of `input.c`

A shallow embedding of the C functions `vector_init`, `vector_append`,
`vector_remove`, `vector_get`, `vector_set`, `vector_add`, `vector_subtract`,
`vector_free`, `vector_multiply`, `vector_sum` and `main`.

Modelling conventions.

* `exit(1)` after a diagnostic becomes `Except.error`; the two diagnostics of the
  source are `Error.IndexOutOfBounds` and `Error.LengthMismatch`.
* The heap block behind `data` is a list of cells, `none` being a cell that was
  allocated but never written.  Any access through `NULL`, outside the block, or
  reading a cell that was never written is undefined in C and is reported as
  `Error.MemoryFault`.
* `size_t` quantities (`size`, `capacity`, `index`) are natural numbers.  A block
  of `capacity` ints occupies `4 * capacity` bytes of a 64-bit address space, so
  these quantities stay far below `2 ^ 64` and their arithmetic does not wrap.
* `int` is 32 bits wide, two's complement.  Every `int` operation of the source
  (`i++`, `i + 1`, `result += ...`, the conversion `int i = index`) is reduced
  with `wrapInt`; an `int` that meets a `size_t` in a comparison or as an
  argument is converted with `toSizeT` (reduction modulo `2 ^ 64`).
* Loops carry a fuel argument; every caller passes enough fuel for the loop to
  reach its exit test, and running out is reported as `Error.OutOfFuel`.
* `Vector.WF` is the representation invariant, `Vector.contents` the sequence a
  well-formed vector stands for, and `Vector.Addressable` says that the block fits
  a 64-bit address space.  `Reachable` and `CoreReachable` are the states the
  operations produce from `vector_init`.
-/

namespace TranslationMethods

/-- The ways a call can fail to return. -/
inductive Error where
  | IndexOutOfBounds
  | LengthMismatch
  | MemoryFault
  | OutOfFuel
  deriving DecidableEq

/-- One `int`-sized slot of a heap block; `none` until it is first written. -/
abbrev Cell := Option Int

/-- The struct `Vector`: `data` is `none` for `NULL`, otherwise the heap block. -/
structure Vector where
  data : Option (List Cell)
  size : Nat
  capacity : Nat
  deriving DecidableEq

/-- Largest value of type `int`. -/
def INT_MAX : Nat := 2147483647

/-- Value of `sizeof(int)`. -/
def sizeof_int : Nat := 4

/-- Reduction of a mathematical integer to the 32-bit two's complement `int`. -/
def wrapInt (z : Int) : Int := (z + 2147483648) % 4294967296 - 2147483648

/-- Conversion of an `int` to `size_t`. -/
def toSizeT (z : Int) : Nat := (z % 18446744073709551616).toNat

/-- Conversion of a `size_t` to `int` (as in `int i = index`). -/
def toInt (n : Nat) : Int := wrapInt (n : Int)

/-- Read of `p[k]`. -/
def load (p : Option (List Cell)) (k : Int) : Except Error Int :=
  match p with
  | none => .error .MemoryFault
  | some buf =>
    if 0 ≤ k ∧ k < (buf.length : Int) then
      match buf.getD k.toNat none with
      | some x => .ok x
      | none => .error .MemoryFault
    else .error .MemoryFault

/-- Write `p[k] = x`. -/
def store (p : Option (List Cell)) (k : Int) (x : Int) : Except Error (Option (List Cell)) :=
  match p with
  | none => .error .MemoryFault
  | some buf =>
    if 0 ≤ k ∧ k < (buf.length : Int) then .ok (some (buf.set k.toNat (some x)))
    else .error .MemoryFault

/-- Library call `realloc(p, bytes)`, for a request the host can satisfy: the new
block has room for `bytes / sizeof(int)` cells, keeps the old cells that fit and
leaves the others unwritten. -/
def realloc (p : Option (List Cell)) (bytes : Nat) : Option (List Cell) :=
  let old := p.getD []
  let n := bytes / sizeof_int
  some (old.take n ++ List.replicate (n - old.length) none)

/-- Source: `vector_init`. -/
def vector_init : Vector := { data := none, size := 0, capacity := 0 }

/-- Source: `vector_append`. -/
def vector_append (vec : Vector) (value : Int) : Except Error Vector :=
  let vec1 : Vector :=
    if vec.size = vec.capacity then
      let cap := if vec.capacity = 0 then 1 else vec.capacity * 2
      { vec with capacity := cap, data := realloc vec.data (cap * sizeof_int) }
    else vec
  match store vec1.data (vec1.size : Int) value with
  | .error e => .error e
  | .ok d => .ok { vec1 with data := d, size := vec1.size + 1 }

/-- The `for` loop of `vector_remove`, entered with counter `i`. -/
def remove_loop : Nat → Int → Vector → Except Error Vector
  | 0, _, _ => .error .OutOfFuel
  | fuel + 1, i, vec =>
    if toSizeT i < vec.size - 1 then
      match load vec.data (wrapInt (i + 1)) with
      | .error e => .error e
      | .ok x =>
        match store vec.data i x with
        | .error e => .error e
        | .ok d => remove_loop fuel (wrapInt (i + 1)) { vec with data := d }
    else .ok vec

/-- Source: `vector_remove`. -/
def vector_remove (vec : Vector) (index : Nat) : Except Error Vector :=
  if index ≥ vec.size then .error .IndexOutOfBounds
  else
    match remove_loop (vec.size + 1) (toInt index) vec with
    | .error e => .error e
    | .ok vec1 => .ok { vec1 with size := vec1.size - 1 }

/-- Source: `vector_get`. -/
def vector_get (vec : Vector) (index : Nat) : Except Error Int :=
  if index ≥ vec.size then .error .IndexOutOfBounds
  else load vec.data (index : Int)

/-- Source: `vector_set`. -/
def vector_set (vec : Vector) (index : Nat) (value : Int) : Except Error Vector :=
  if index ≥ vec.size then .error .IndexOutOfBounds
  else
    match store vec.data (index : Int) value with
    | .error e => .error e
    | .ok d => .ok { vec with data := d }

/-- The `for` loop of `vector_add`, entered with counter `i`. -/
def add_loop : Nat → Int → Vector → Vector → Except Error Vector
  | 0, _, _, _ => .error .OutOfFuel
  | fuel + 1, i, vec1, vec2 =>
    if toSizeT i < vec2.size then
      match vector_get vec2 (toSizeT i) with
      | .error e => .error e
      | .ok x =>
        match vector_append vec1 x with
        | .error e => .error e
        | .ok vec1a => add_loop fuel (wrapInt (i + 1)) vec1a vec2
    else .ok vec1

/-- Source: `vector_add` (the two arguments are distinct objects). -/
def vector_add (vec1 vec2 : Vector) : Except Error Vector :=
  add_loop (vec2.size + 1) 0 vec1 vec2

/-- The inner `for` loop of `vector_subtract`, entered with counter `j`; `i` is
the counter of the enclosing loop. -/
def subtract_inner : Nat → Int → Int → Vector → Vector → Except Error Vector
  | 0, _, _, _, _ => .error .OutOfFuel
  | fuel + 1, j, i, vec1, vec2 =>
    if toSizeT j < vec1.size then
      match vector_get vec1 (toSizeT j) with
      | .error e => .error e
      | .ok a =>
        match vector_get vec2 (toSizeT i) with
        | .error e => .error e
        | .ok b =>
          if a = b then vector_remove vec1 (toSizeT j)
          else subtract_inner fuel (wrapInt (j + 1)) i vec1 vec2
    else .ok vec1

/-- The outer `for` loop of `vector_subtract`, entered with counter `i`. -/
def subtract_outer : Nat → Int → Vector → Vector → Except Error Vector
  | 0, _, _, _ => .error .OutOfFuel
  | fuel + 1, i, vec1, vec2 =>
    if toSizeT i < vec2.size then
      match subtract_inner (vec1.size + 1) 0 i vec1 vec2 with
      | .error e => .error e
      | .ok vec1a => subtract_outer fuel (wrapInt (i + 1)) vec1a vec2
    else .ok vec1

/-- Source: `vector_subtract` (the two arguments are distinct objects). -/
def vector_subtract (vec1 vec2 : Vector) : Except Error Vector :=
  subtract_outer (vec2.size + 1) 0 vec1 vec2

/-- Source: `vector_free`. -/
def vector_free (_vec : Vector) : Vector := { data := none, size := 0, capacity := 0 }

/-- The `for` loop of `vector_multiply`, entered with counter `i` and
accumulator `result`. -/
def multiply_loop : Nat → Int → Int → Vector → Vector → Except Error Int
  | 0, _, _, _, _ => .error .OutOfFuel
  | fuel + 1, i, result, vec1, vec2 =>
    if toSizeT i < vec1.size then
      match vector_get vec1 (toSizeT i) with
      | .error e => .error e
      | .ok a =>
        match vector_get vec2 (toSizeT i) with
        | .error e => .error e
        | .ok b => multiply_loop fuel (wrapInt (i + 1)) (wrapInt (result + wrapInt (a * b))) vec1 vec2
    else .ok result

/-- Source: `vector_multiply`. -/
def vector_multiply (vec1 vec2 : Vector) : Except Error Int :=
  if vec1.size ≠ vec2.size then .error .LengthMismatch
  else multiply_loop (vec1.size + 1) 0 0 vec1 vec2

/-- The `for` loop of `vector_sum`, entered with the `size_t` counter `i` and
accumulator `sum`. -/
def sum_loop : Nat → Nat → Int → Vector → Except Error Int
  | 0, _, _, _ => .error .OutOfFuel
  | fuel + 1, i, sum, vec =>
    if i < vec.size then
      match vector_get vec i with
      | .error e => .error e
      | .ok x => sum_loop fuel (i + 1) (wrapInt (sum + x)) vec
    else .ok sum

/-- Source: `vector_sum`. -/
def vector_sum (vec : Vector) : Except Error Int :=
  sum_loop (vec.size + 1) 0 0 vec

/-- The block behind `data`, empty for `NULL`. -/
def Vector.buffer (v : Vector) : List Cell := v.data.getD []

/-- The logical contents: the values held by the first `size` cells. -/
def Vector.contents (v : Vector) : List Int := (v.buffer.take v.size).filterMap id

/-- Well-formed vector: the block has exactly `capacity` cells, `size` of them are
in use, and every cell in use has been written. -/
def Vector.WF (v : Vector) : Prop :=
  v.buffer.length = v.capacity ∧ v.size ≤ v.capacity ∧
    v.buffer.take v.size = v.contents.map some

instance (v : Vector) : Decidable v.WF := by
  unfold Vector.WF; infer_instance

/-- Specification of a bounds-checked read from a list of values. -/
def getSpec (l : List Int) (i : Nat) : Except Error Int :=
  match l[i]? with
  | some x => .ok x
  | none => .error .IndexOutOfBounds

/-- The capacity `vector_append` leaves behind. -/
def grownCapacity (v : Vector) : Nat :=
  if v.size = v.capacity then (if v.capacity = 0 then 1 else v.capacity * 2) else v.capacity

/-- Contents after the shifting loop of `vector_remove` has run from position `j`
to the end: the element at `j` is overwritten by its successors and the last
element is duplicated. -/
def shifted (l : List Int) (j : Nat) : List Int :=
  l.take j ++ l.drop (j + 1) ++ l.drop (l.length - 1)

/-- The products `a[m] * b[m]` of two lists, position by position. -/
def products (l1 l2 : List Int) : List Int := List.zipWith (fun a b => a * b) l1 l2

/-- The well-formed vector holding `l`, followed by `spare` cells never written. -/
def mkVector (l : List Int) (spare : Nat) : Vector :=
  { data := some (l.map some ++ List.replicate spare none), size := l.length,
    capacity := l.length + spare }

/-- A vector of `INT_MAX + 3` elements in a block of `2 ^ 32` cells: zeros, then a
final 1. -/
def removeInput : Vector := mkVector (List.replicate (INT_MAX + 2) 0 ++ [1]) (INT_MAX - 1)

/-- A vector of `INT_MAX + 2` elements in a block of `2 ^ 32` cells: zeros, then a
final 1. -/
def bigSource : Vector := mkVector (List.replicate (INT_MAX + 1) 0 ++ [1]) INT_MAX

/-- A vector of `INT_MAX + 2` elements in a block of `2 ^ 32` cells: zeros, then a
final 3. -/
def bigFactor : Vector := mkVector (List.replicate (INT_MAX + 1) 0 ++ [3]) INT_MAX

/-- The number of iterations an `int`-counted loop over `n` positions performs:
the counter wraps to a negative value after `INT_MAX + 1` of them. -/
def counted (n : Nat) : Nat := min n (INT_MAX + 1)

/-- The vector holding the single element 5 in a block of one cell. -/
def smallTarget : Vector := mkVector [5] 0

/-- The vector holding the single element 1 in a block of one cell. -/
def unitTarget : Vector := mkVector [1] 0

/-- The printing loops of `main`: `for (int i = 0; i < vec.size; i++)` printing
`vector_get(&vec, i)`; `out` collects the numbers printed so far. -/
def print_loop : Nat → Int → Vector → List Int → Except Error (List Int)
  | 0, _, _, _ => .error .OutOfFuel
  | fuel + 1, i, vec, out =>
    if toSizeT i < vec.size then
      match vector_get vec (toSizeT i) with
      | .error e => .error e
      | .ok x => print_loop fuel (wrapInt (i + 1)) vec (out ++ [x])
    else .ok out

/-- The numbers `main` prints, line by line (the labels are left out). -/
structure Output where
  vector1 : List Int
  vector2 : List Int
  afterAdd : List Int
  afterSubtract : List Int
  multiply : Int
  sum1 : Int
  sum2 : Int
  second : Int
  third : Int
  deriving DecidableEq

/-- Source: `main`. -/
def main : Except Error Output := do
  let vec1 := vector_init
  let vec2 := vector_init
  let vec1 ← vector_append vec1 10
  let vec1 ← vector_append vec1 20
  let vec1 ← vector_append vec1 30
  let vec2 ← vector_append vec2 40
  let vec2 ← vector_append vec2 50
  let vec2 ← vector_append vec2 60
  let line1 ← print_loop (vec1.size + 1) 0 vec1 []
  let line2 ← print_loop (vec2.size + 1) 0 vec2 []
  let vec1 ← vector_add vec1 vec2
  let line3 ← print_loop (vec1.size + 1) 0 vec1 []
  let vec1 ← vector_subtract vec1 vec2
  let line4 ← print_loop (vec1.size + 1) 0 vec1 []
  let multiply ← vector_multiply vec1 vec2
  let sum1 ← vector_sum vec1
  let sum2 ← vector_sum vec2
  let second ← vector_get vec1 1
  let third ← vector_get vec2 2
  pure { vector1 := line1, vector2 := line2, afterAdd := line3, afterSubtract := line4,
         multiply := multiply, sum1 := sum1, sum2 := sum2, second := second, third := third }

/-- States that can arise from `vector_init` by the operations of the program. -/
inductive Reachable : Vector → Prop where
  | init : Reachable vector_init
  | append (v v' : Vector) (x : Int) :
      Reachable v → vector_append v x = .ok v' → Reachable v'
  | set (v v' : Vector) (i : Nat) (x : Int) :
      Reachable v → vector_set v i x = .ok v' → Reachable v'
  | remove (v v' : Vector) (i : Nat) :
      Reachable v → vector_remove v i = .ok v' → Reachable v'
  | add (v1 v2 v' : Vector) :
      Reachable v1 → Reachable v2 → vector_add v1 v2 = .ok v' → Reachable v'
  | subtract (v1 v2 v' : Vector) :
      Reachable v1 → Reachable v2 → vector_subtract v1 v2 = .ok v' → Reachable v'
  | free (v : Vector) : Reachable v → Reachable (vector_free v)

/-- States that can arise from `vector_init` by `vector_append`, `vector_set` and
`vector_remove` alone. -/
inductive CoreReachable : Vector → Prop where
  | init : CoreReachable vector_init
  | append (v v' : Vector) (x : Int) :
      CoreReachable v → vector_append v x = .ok v' → CoreReachable v'
  | set (v v' : Vector) (i : Nat) (x : Int) :
      CoreReachable v → vector_set v i x = .ok v' → CoreReachable v'
  | remove (v v' : Vector) (i : Nat) :
      CoreReachable v → vector_remove v i = .ok v' → CoreReachable v'

/-- Successive calls `vector_append(&vec, x)` for the elements `x` of a list, in
order. -/
def append_all (vec : Vector) : List Int → Except Error Vector
  | [] => .ok vec
  | x :: xs =>
    match vector_append vec x with
    | .error e => .error e
    | .ok vec1 => append_all vec1 xs

/-- The capacity is 0 for an empty vector and otherwise the power of two with
`capacity / 2 < size ≤ capacity`. -/
def Tight (v : Vector) : Prop :=
  (v.size = 0 ∧ v.capacity = 0) ∨ ∃ k, v.capacity = 2 ^ k ∧ v.size ≤ 2 ^ k ∧ 2 ^ k < 2 * v.size

/-- The block of the vector fits a 64-bit address space. -/
def Vector.Addressable (v : Vector) : Prop :=
  v.capacity * sizeof_int < 18446744073709551616

instance (v : Vector) : Decidable v.Addressable := by
  unfold Vector.Addressable; infer_instance

/-- A vector of `INT_MAX + 1` zeros in a full block of `2 ^ 31` cells. -/
def bigZeros : Vector := mkVector (List.replicate (INT_MAX + 1) 0) 0

/-! ## Arithmetic of the machine types and the memory model -/

theorem wrapInt_natCast (n : Nat) (h : n ≤ INT_MAX) : wrapInt (n : Int) = n := by
  unfold INT_MAX at h; unfold wrapInt; omega

theorem toSizeT_natCast (n : Nat) (h : n < 18446744073709551616) : toSizeT (n : Int) = n := by
  unfold toSizeT; omega

theorem toInt_eq (n : Nat) (h : n ≤ INT_MAX) : toInt n = n := wrapInt_natCast n h

theorem wrapInt_wrapInt_add (a b : Int) : wrapInt (wrapInt a + b) = wrapInt (a + b) := by
  unfold wrapInt; omega

theorem wrapInt_add_wrapInt (a b : Int) : wrapInt (a + wrapInt b) = wrapInt (a + b) := by
  unfold wrapInt; omega

theorem load_values (l : List Int) (tail : List Cell) (k : Nat) (hk : k < l.length) :
    load (some (l.map some ++ tail)) (k : Int) = .ok (l[k]) := by
  have h1 : (0 : Int) ≤ k ∧ (k : Int) < ((l.map some ++ tail).length : Int) := by
    simp; omega
  simp only [load, h1, and_self, if_true, Int.toNat_ofNat]
  have : (l.map some ++ tail).getD k none = some l[k] := by
    rw [List.getD_eq_getElem?_getD, List.getElem?_append_left (by simpa using hk)]
    simp [hk]
  rw [this]

theorem store_cell (buf : List Cell) (k : Nat) (x : Int) (hk : k < buf.length) :
    store (some buf) (k : Int) x = .ok (some (buf.set k (some x))) := by
  have h1 : (0 : Int) ≤ k ∧ (k : Int) < (buf.length : Int) := by omega
  simp only [store, h1, and_self, if_true, Int.toNat_ofNat]

theorem Vector.WF.length_contents {v : Vector} (h : v.WF) : v.contents.length = v.size := by
  obtain ⟨h1, h2, h3⟩ := h
  have := congrArg List.length h3
  simp at this
  omega

theorem Vector.WF.buffer_eq {v : Vector} (h : v.WF) :
    v.buffer = v.contents.map some ++ v.buffer.drop v.size := by
  obtain ⟨h1, h2, h3⟩ := h
  rw [← h3, List.take_append_drop]

theorem Vector.WF.data_eq {v : Vector} (h : v.WF) (hc : 0 < v.capacity) :
    v.data = some (v.contents.map some ++ v.buffer.drop v.size) := by
  have hb := h.buffer_eq
  obtain ⟨h1, -, -⟩ := h
  cases hd : v.data with
  | none => simp [Vector.buffer, hd] at h1; omega
  | some buf => simp [Vector.buffer, hd] at hb ⊢; exact hb

/-- A vector whose block is the values `l` followed by any `tail`, with `size` and
`capacity` to match, is well-formed and has contents `l`. -/
theorem wf_of_layout (v : Vector) (l : List Int) (tail : List Cell)
    (hd : v.buffer = l.map some ++ tail) (hs : v.size = l.length)
    (hc : v.capacity = l.length + tail.length) : v.WF ∧ v.contents = l := by
  have hc2 : v.contents = l := by
    simp [Vector.contents, hd, hs]
  refine ⟨⟨?_, ?_, ?_⟩, hc2⟩
  · simp [hd, hc]
  · omega
  · rw [hc2, hd, hs]; simp

/-- On a well-formed vector `vector_get` is the bounds-checked read of the contents. -/
theorem vector_get_wf (v : Vector) (i : Nat) (h : v.WF) :
    vector_get v i = getSpec v.contents i := by
  unfold vector_get getSpec
  by_cases hi : i ≥ v.size
  · have : v.contents.length ≤ i := by rw [h.length_contents]; exact hi
    simp [hi, List.getElem?_eq_none this]
  · have hi2 : i < v.contents.length := by rw [h.length_contents]; omega
    have hcap : 0 < v.capacity := by have := h.2.1; omega
    simp only [hi, if_false, h.data_eq hcap, load_values _ _ _ hi2, List.getElem?_eq_getElem hi2]

theorem store_next (l : List Int) (c : Cell) (t : List Cell) (x : Int) :
    store (some (l.map some ++ c :: t)) (l.length : Int) x
      = .ok (some ((l ++ [x]).map some ++ t)) := by
  rw [store_cell _ _ _ (by simp)]
  congr 2
  rw [List.set_append_right _ _ (by simp)]
  simp

theorem realloc_grow (v : Vector) (n : Nat) (h : v.buffer.length ≤ n) :
    realloc v.data (n * sizeof_int)
      = some (v.buffer ++ List.replicate (n - v.buffer.length) none) := by
  unfold Vector.buffer at h ⊢
  unfold realloc
  have : n * sizeof_int / sizeof_int = n := by simp [sizeof_int]
  simp only [this]
  rw [List.take_of_length_le h]

/-- Effect of `vector_append` on a well-formed vector, with the capacity it leaves. -/
theorem vector_append_layout (v : Vector) (x : Int) (h : v.WF) :
    ∃ v', vector_append v x = .ok v' ∧ v'.WF ∧ v'.contents = v.contents ++ [x] ∧
      v'.size = v.size + 1 ∧ v'.capacity = grownCapacity v := by
  have hlen := h.length_contents
  have hbuf := h.buffer_eq
  obtain ⟨h1, h2, -⟩ := h
  have htl : (v.buffer.drop v.size).length = v.capacity - v.size := by simp [h1]
  by_cases hfull : v.size = v.capacity
  · -- the block is full: grow it first
    have hnil : v.buffer.drop v.size = [] := by
      apply List.eq_nil_of_length_eq_zero; omega
    rw [hnil, List.append_nil] at hbuf
    obtain ⟨k, hk⟩ : ∃ k, (if v.capacity = 0 then 1 else v.capacity * 2) = v.capacity + (k + 1) := by
      by_cases h0 : v.capacity = 0
      · exact ⟨0, by simp [h0]⟩
      · exact ⟨v.capacity - 1, by simp [h0]; omega⟩
    have hre : realloc v.data ((v.capacity + (k + 1)) * sizeof_int)
        = some (v.contents.map some ++ none :: List.replicate k none) := by
      rw [realloc_grow v _ (by omega), h1, hbuf]
      have : v.capacity + (k + 1) - v.capacity = k + 1 := by omega
      rw [this, List.replicate_succ]
    have hst := store_next v.contents none (List.replicate k none) x
    rw [hlen] at hst
    obtain ⟨hw, hcont⟩ := wf_of_layout
      { data := some ((v.contents ++ [x]).map some ++ List.replicate k none),
        size := v.size + 1, capacity := v.capacity + (k + 1) }
      (v.contents ++ [x]) (List.replicate k none) rfl (by simp [hlen]) (by simp [hlen]; omega)
    refine ⟨_, ?_, hw, hcont, rfl, ?_⟩
    · simp only [vector_append, hfull, if_true, hk, hre]
      rw [← hfull, hst]
    · simp [grownCapacity, hfull, hk]
  · -- there is a free cell
    obtain ⟨c, t, hct⟩ : ∃ c t, v.buffer.drop v.size = c :: t := by
      cases hd : v.buffer.drop v.size with
      | nil => rw [hd] at htl; simp at htl; omega
      | cons c t => exact ⟨c, t, rfl⟩
    have hdata : v.data = some (v.contents.map some ++ c :: t) := by
      rw [← hct]
      exact Vector.WF.data_eq ⟨h1, h2, by rw [hbuf]; simp [hlen]⟩ (by omega)
    have hst := store_next v.contents c t x
    rw [hlen] at hst
    have htlen : t.length + 1 = v.capacity - v.size := by rw [← htl, hct]; simp
    obtain ⟨hw, hcont⟩ := wf_of_layout
      { data := some ((v.contents ++ [x]).map some ++ t),
        size := v.size + 1, capacity := v.capacity }
      (v.contents ++ [x]) t rfl (by simp [hlen]) (by simp [hlen]; omega)
    refine ⟨_, ?_, hw, hcont, rfl, ?_⟩
    · simp only [vector_append, hfull, if_false, hdata, hst]
    · simp [grownCapacity, hfull]

theorem store_values (l : List Int) (t : List Cell) (k : Nat) (x : Int) (hk : k < l.length) :
    store (some (l.map some ++ t)) (k : Int) x = .ok (some ((l.set k x).map some ++ t)) := by
  rw [store_cell _ _ _ (by simp; omega)]
  congr 2
  rw [List.set_append_left _ _ (by simpa using hk), List.map_set]

theorem shifted_last (l : List Int) (j : Nat) (h : j + 1 = l.length) : shifted l j = l := by
  unfold shifted
  have h1 : l.drop (j + 1) = [] := by simp [h]
  have h2 : l.length - 1 = j := by omega
  rw [h1, h2, List.append_nil, List.take_append_drop]

theorem shifted_step (l : List Int) (j : Nat) (h : j + 1 < l.length) :
    shifted (l.set j (l[j + 1])) (j + 1) = shifted l j := by
  unfold shifted
  have e1 : (l.set j l[j + 1]).take (j + 1) = l.take j ++ [l[j + 1]] := by
    have hj : j < l.length := by omega
    rw [List.set_take, List.take_succ, List.getElem?_eq_getElem hj,
      List.set_append_right _ _ (by simp)]
    simp [List.length_take, Nat.min_eq_left (Nat.le_of_lt hj)]
  have e2 : (l.set j l[j + 1]).drop (j + 1 + 1) = l.drop (j + 2) := by
    rw [List.drop_set_of_lt _ _ (by omega)]
  have e3 : (l.set j l[j + 1]).drop ((l.set j l[j + 1]).length - 1) = l.drop (l.length - 1) := by
    rw [List.length_set, List.drop_set_of_lt _ _ (by omega)]
  have e4 : l.drop (j + 1) = l[j + 1] :: l.drop (j + 2) := by
    rw [List.drop_eq_getElem_cons h]
  rw [e1, e2, e3, e4]
  simp

/-- The shifting loop of `vector_remove`, run from counter `j` on a block holding `l`
(at most `INT_MAX + 1` values): it returns normally and leaves `shifted l j`. -/
theorem remove_loop_values (tail : List Cell) (cap : Nat) :
    ∀ (d fuel j : Nat) (l : List Int), j + d + 1 = l.length → d < fuel →
      l.length ≤ INT_MAX + 1 →
      remove_loop fuel (j : Int)
          { data := some (l.map some ++ tail), size := l.length, capacity := cap }
        = .ok { data := some ((shifted l j).map some ++ tail), size := l.length,
                capacity := cap } := by
  intro d
  induction d with
  | zero =>
    intro fuel j l hj hf hb
    obtain ⟨fuel, rfl⟩ : ∃ f, fuel = f + 1 := ⟨fuel - 1, by omega⟩
    have hb2 : j < 18446744073709551616 := by unfold INT_MAX at hb; omega
    have : ¬ (toSizeT (j : Int) < l.length - 1) := by
      rw [toSizeT_natCast j hb2]; omega
    rw [remove_loop, if_neg this, shifted_last l j (by omega)]
  | succ d ih =>
    intro fuel j l hj hf hb
    obtain ⟨fuel, rfl⟩ : ∃ f, fuel = f + 1 := ⟨fuel - 1, by omega⟩
    have hb2 : j < 18446744073709551616 := by unfold INT_MAX at hb; omega
    have hlt : toSizeT (j : Int) < l.length - 1 := by
      rw [toSizeT_natCast j hb2]; omega
    have hw : wrapInt ((j : Int) + 1) = ((j + 1 : Nat) : Int) := by
      have := wrapInt_natCast (j + 1) (by omega)
      simpa using this
    have hj1 : j + 1 < l.length := by omega
    rw [remove_loop, if_pos hlt, hw]
    simp only []
    rw [load_values l tail (j + 1) hj1]
    simp only []
    rw [store_values l tail j _ (by omega)]
    simp only []
    have := ih fuel (j + 1) (l.set j l[j + 1]) (by simp; omega) (by omega) (by simpa using hb)
    simp only [List.length_set] at this
    rw [this, shifted_step l j hj1]

theorem shifted_eq_eraseIdx (l : List Int) (j : Nat) :
    shifted l j = l.eraseIdx j ++ l.drop (l.length - 1) := by
  unfold shifted
  rw [List.eraseIdx_eq_take_drop_succ]

/-- A well-formed vector with at least one cell, written out field by field. -/
theorem Vector.WF.eq_mk {v : Vector} (h : v.WF) (hc : 0 < v.capacity) :
    v = { data := some (v.contents.map some ++ v.buffer.drop v.size),
          size := v.contents.length, capacity := v.capacity } := by
  have h1 := h.data_eq hc
  have h2 := h.length_contents
  cases v with
  | mk d s c => rw [Vector.mk.injEq]; exact ⟨h1, h2.symm, rfl⟩

/-- Effect of `vector_remove` on a well-formed vector of at most `INT_MAX + 1`
elements: the element at `i` is erased, the order of the others is kept, `size`
drops by one and `capacity` stays. -/
theorem vector_remove_layout (v : Vector) (i : Nat) (h : v.WF) (hi : i < v.size)
    (hb : v.size ≤ INT_MAX + 1) :
    ∃ v', vector_remove v i = .ok v' ∧ v'.WF ∧ v'.contents = v.contents.eraseIdx i ∧
      v'.size = v.size - 1 ∧ v'.capacity = v.capacity := by
  have hlen := h.length_contents
  have hcap : 0 < v.capacity := by have := h.2.1; omega
  have hmk := h.eq_mk hcap
  have htl : (v.buffer.drop v.size).length = v.capacity - v.size := by simp [h.1]
  generalize v.contents = l at hlen hmk ⊢
  generalize v.buffer.drop v.size = tail at hmk htl
  have hsz : l.length - 1 + 1 = l.length := by omega
  obtain ⟨hw, hcont⟩ := wf_of_layout
    { data := some ((shifted l i).map some ++ tail), size := l.length - 1,
      capacity := v.capacity }
    (l.eraseIdx i) ((l.drop (l.length - 1)).map some ++ tail)
    (by simp [Vector.buffer, shifted_eq_eraseIdx])
    (by simp [List.length_eraseIdx, hlen, hi])
    (by simp [List.length_eraseIdx, hlen, hi]; have := h.2.1; omega)
  refine ⟨_, ?_, hw, hcont, by simp [hlen], rfl⟩
  have hidx : toInt i = (i : Int) := toInt_eq i (by omega)
  have hloop := remove_loop_values tail v.capacity (l.length - 1 - i) (l.length + 1) i l
    (by omega) (by omega) (by omega)
  have hge : ¬ (i ≥ v.size) := by omega
  unfold vector_remove
  rw [if_neg hge, hidx]
  rw [hmk]
  simp only []
  rw [hloop]

/-- Effect of `vector_set` on a well-formed vector. -/
theorem vector_set_layout (v : Vector) (i : Nat) (x : Int) (h : v.WF) (hi : i < v.size) :
    ∃ v', vector_set v i x = .ok v' ∧ v'.WF ∧ v'.contents = v.contents.set i x ∧
      v'.size = v.size ∧ v'.capacity = v.capacity := by
  have hlen := h.length_contents
  have hcap : 0 < v.capacity := by have := h.2.1; omega
  have hmk := h.eq_mk hcap
  have htl : (v.buffer.drop v.size).length = v.capacity - v.size := by simp [h.1]
  generalize v.contents = l at hlen hmk ⊢
  generalize v.buffer.drop v.size = tail at hmk htl
  obtain ⟨hw, hcont⟩ := wf_of_layout
    { data := some ((l.set i x).map some ++ tail), size := l.length, capacity := v.capacity }
    (l.set i x) tail rfl (by simp) (by simp; have := h.2.1; omega)
  refine ⟨_, ?_, hw, hcont, by simp [hlen], rfl⟩
  have hge : ¬ (i ≥ v.size) := by omega
  unfold vector_set
  rw [if_neg hge, hmk]
  simp only []
  rw [store_values l tail i x (by omega)]

theorem vector_get_ok (v : Vector) (i : Nat) (h : v.WF) (hi : i < v.contents.length) :
    vector_get v i = .ok (v.contents[i]) := by
  rw [vector_get_wf v i h, getSpec, List.getElem?_eq_getElem hi]

theorem toSizeT_small (i : Nat) (h : i ≤ INT_MAX) : toSizeT (wrapInt (i : Int)) = i := by
  rw [wrapInt_natCast i h, toSizeT_natCast i (by unfold INT_MAX at h; omega)]

theorem wrapInt_succ (i : Nat) :
    wrapInt (wrapInt (i : Int) + 1) = wrapInt ((i + 1 : Nat) : Int) := by
  rw [wrapInt_wrapInt_add]; simp

/-- Once the counter has covered a length of at most `INT_MAX + 1`, the loop test
`i < size` fails, also when the last increment wrapped around. -/
theorem loop_exit (n : Nat) (h : n ≤ INT_MAX + 1) : ¬ (toSizeT (wrapInt (n : Int)) < n) := by
  unfold INT_MAX at h; unfold toSizeT wrapInt; omega

theorem wrapInt_zero : wrapInt 0 = 0 := by decide

theorem foldl_wrap_sum (l : List Int) :
    ∀ acc : Int, l.foldl (fun s x => wrapInt (s + x)) (wrapInt acc) = wrapInt (acc + l.sum) := by
  induction l with
  | nil => intro acc; simp
  | cons x l ih =>
    intro acc
    rw [List.foldl_cons, wrapInt_wrapInt_add, ih, List.sum_cons, add_assoc]

theorem sum_loop_values (v : Vector) (h : v.WF) :
    ∀ (rest pre : List Int) (fuel : Nat) (acc : Int), v.contents = pre ++ rest →
      rest.length < fuel →
      sum_loop fuel pre.length acc v = .ok (rest.foldl (fun s x => wrapInt (s + x)) acc) := by
  have hlen := h.length_contents
  intro rest
  induction rest with
  | nil =>
    intro pre fuel acc hc hf
    obtain ⟨fuel, rfl⟩ : ∃ f, fuel = f + 1 := ⟨fuel - 1, by simp at hf; omega⟩
    have : ¬ (pre.length < v.size) := by rw [← hlen, hc]; simp
    rw [sum_loop, if_neg this]; rfl
  | cons a rest ih =>
    intro pre fuel acc hc hf
    obtain ⟨fuel, rfl⟩ : ∃ f, fuel = f + 1 := ⟨fuel - 1, by simp at hf; omega⟩
    have hlt : pre.length < v.size := by rw [← hlen, hc]; simp
    have hget : vector_get v pre.length = .ok a := by
      have hx : (pre ++ a :: rest)[pre.length]? = some a := by
        rw [List.getElem?_append_right (le_refl _)]; simp
      rw [vector_get_wf v _ h, getSpec, hc, hx]
    rw [sum_loop, if_pos hlt, hget]
    simp only []
    have := ih (pre ++ [a]) fuel (wrapInt (acc + a)) (by simp [hc]) (by simp at hf; omega)
    simp only [List.length_append, List.length_singleton] at this
    rw [this, List.foldl_cons]

/-- On a well-formed vector of any length `vector_sum` returns the sum of the
contents reduced to `int`. -/
theorem vector_sum_values (v : Vector) (h : v.WF) :
    vector_sum v = .ok (wrapInt v.contents.sum) := by
  unfold vector_sum
  have := sum_loop_values v h v.contents [] (v.size + 1) 0 rfl
    (by rw [h.length_contents]; omega)
  simp only [List.length_nil] at this
  rw [this]
  have h2 := foldl_wrap_sum v.contents 0
  rw [wrapInt_zero, zero_add] at h2
  rw [h2]

theorem products_step (l1 l2 : List Int) (i k : Nat) (h1 : i < l1.length)
    (h2 : i < l2.length) :
    (((products l1 l2).drop i).take (k + 1)).sum
      = l1[i] * l2[i] + (((products l1 l2).drop (i + 1)).take k).sum := by
  have hz : i < (products l1 l2).length := by simp [products]; omega
  rw [List.drop_eq_getElem_cons hz, List.take_succ_cons, List.sum_cons]
  simp [products]

theorem multiply_loop_succ (fuel : Nat) (i result : Int) (vec1 vec2 : Vector) :
    multiply_loop (fuel + 1) i result vec1 vec2 =
      if toSizeT i < vec1.size then
        match vector_get vec1 (toSizeT i) with
        | .error e => .error e
        | .ok a =>
          match vector_get vec2 (toSizeT i) with
          | .error e => .error e
          | .ok b =>
            multiply_loop fuel (wrapInt (i + 1)) (wrapInt (result + wrapInt (a * b))) vec1 vec2
      else .ok result := rfl

/-- Run of `k` iterations of the loop of `vector_multiply` from counter `i`, as long
as the counter stays within `INT_MAX + 1`. -/
theorem multiply_loop_steps (v1 v2 : Vector) (h1 : v1.WF) (h2 : v2.WF)
    (hs : v1.size = v2.size) :
    ∀ (k fuel i : Nat) (acc : Int), i + k ≤ v1.size → i + k ≤ INT_MAX + 1 →
      multiply_loop (fuel + k) (wrapInt (i : Int)) (wrapInt acc) v1 v2
        = multiply_loop fuel (wrapInt ((i + k : Nat) : Int))
            (wrapInt (acc + (((products v1.contents v2.contents).drop i).take k).sum)) v1 v2 := by
  have hl1 := h1.length_contents
  have hl2 := h2.length_contents
  intro k
  induction k with
  | zero => intro fuel i acc _ _; simp
  | succ k ih =>
    intro fuel i acc hi hb
    have hi1 : i < v1.contents.length := by omega
    have hi2 : i < v2.contents.length := by omega
    have hlt : toSizeT (wrapInt (i : Int)) < v1.size := by
      rw [toSizeT_small i (by omega)]; omega
    have hdrop := products_step v1.contents v2.contents i k hi1 hi2
    show multiply_loop ((fuel + k) + 1) _ _ v1 v2 = _
    rw [multiply_loop_succ, if_pos hlt, toSizeT_small i (by omega),
      vector_get_ok v1 i h1 hi1, vector_get_ok v2 i h2 hi2]
    simp only []
    rw [wrapInt_succ i, wrapInt_add_wrapInt, wrapInt_wrapInt_add,
      ih fuel (i + 1) _ (by omega) (by omega), hdrop]
    have e1 : i + 1 + k = i + (k + 1) := by omega
    rw [e1, add_assoc]

theorem multiply_loop_exit (fuel : Nat) (c acc : Int) (v1 v2 : Vector)
    (h : ¬ (toSizeT c < v1.size)) : multiply_loop (fuel + 1) c acc v1 v2 = .ok acc := by
  rw [multiply_loop_succ, if_neg h]

/-- On well-formed vectors of equal size, at most `INT_MAX + 1`, `vector_multiply`
returns the sum of the products reduced to `int`. -/
theorem vector_multiply_values (v1 v2 : Vector) (h1 : v1.WF) (h2 : v2.WF)
    (hs : v1.size = v2.size) (hb : v1.size ≤ INT_MAX + 1) :
    vector_multiply v1 v2 = .ok (wrapInt (products v1.contents v2.contents).sum) := by
  unfold vector_multiply
  rw [if_neg (by simpa using hs)]
  have := multiply_loop_steps v1 v2 h1 h2 hs v1.size 1 0 0 (by omega) (by omega)
  simp only [Nat.cast_zero, wrapInt_zero, zero_add, List.drop_zero] at this
  rw [Nat.add_comm 1 v1.size] at this
  rw [this, multiply_loop_exit 0 _ _ v1 v2 (by simpa using loop_exit v1.size hb)]
  have hlen : (products v1.contents v2.contents).length ≤ v1.size := by
    simp [products, h1.length_contents]
  simp [List.take_of_length_le hlen]

theorem drop_take_succ (l : List Int) (i k : Nat) (x : Int) (hx : l[i]? = some x) :
    (l.drop i).take (k + 1) = x :: (l.drop (i + 1)).take k := by
  obtain ⟨hi, rfl⟩ := List.getElem?_eq_some.mp hx
  rw [List.drop_eq_getElem_cons hi, List.take_succ_cons]

theorem vector_get_some (v : Vector) (i : Nat) (h : v.WF) (hi : i < v.size) :
    ∃ x, v.contents[i]? = some x ∧ vector_get v i = .ok x := by
  have hi2 : i < v.contents.length := by rw [h.length_contents]; exact hi
  exact ⟨v.contents[i], List.getElem?_eq_getElem hi2, vector_get_ok v i h hi2⟩

theorem add_loop_succ (fuel : Nat) (i : Int) (vec1 vec2 : Vector) :
    add_loop (fuel + 1) i vec1 vec2 =
      if toSizeT i < vec2.size then
        match vector_get vec2 (toSizeT i) with
        | .error e => .error e
        | .ok x =>
          match vector_append vec1 x with
          | .error e => .error e
          | .ok vec1a => add_loop fuel (wrapInt (i + 1)) vec1a vec2
      else .ok vec1 := rfl

/-- Run of `k` iterations of the loop of `vector_add` from counter `i`, as long as
the counter stays within `INT_MAX + 1`. -/
theorem add_loop_steps (v2 : Vector) (h2 : v2.WF) :
    ∀ (k fuel i : Nat) (v1 : Vector), v1.WF → i + k ≤ v2.size → i + k ≤ INT_MAX + 1 →
      ∃ v1', v1'.WF ∧ v1'.contents = v1.contents ++ (v2.contents.drop i).take k ∧
        add_loop (fuel + k) (wrapInt (i : Int)) v1 v2
          = add_loop fuel (wrapInt ((i + k : Nat) : Int)) v1' v2 := by
  have hl2 := h2.length_contents
  intro k
  induction k with
  | zero => intro fuel i v1 h1 _ _; exact ⟨v1, h1, by simp, rfl⟩
  | succ k ih =>
    intro fuel i v1 h1 hi hb
    obtain ⟨x, hx, hget⟩ := vector_get_some v2 i h2 (by omega)
    have hlt : toSizeT (wrapInt (i : Int)) < v2.size := by
      rw [toSizeT_small i (by omega)]; omega
    obtain ⟨v1a, hap, hwa, hca, -, -⟩ := vector_append_layout v1 x h1
    obtain ⟨v1b, hwb, hcb, hrun⟩ := ih fuel (i + 1) v1a hwa (by omega) (by omega)
    refine ⟨v1b, hwb, ?_, ?_⟩
    · rw [hcb, hca, drop_take_succ _ i k x hx]; simp
    · show add_loop ((fuel + k) + 1) _ v1 v2 = _
      rw [add_loop_succ, if_pos hlt, toSizeT_small i (by omega), hget]
      simp only []
      rw [hap]
      simp only []
      rw [wrapInt_succ i, hrun]
      have e1 : i + 1 + k = i + (k + 1) := by omega
      rw [e1]

theorem add_loop_exit (fuel : Nat) (c : Int) (v1 v2 : Vector)
    (h : ¬ (toSizeT c < v2.size)) : add_loop (fuel + 1) c v1 v2 = .ok v1 := by
  rw [add_loop_succ, if_neg h]

/-- On well-formed vectors, the source of size at most `INT_MAX + 1`, `vector_add`
leaves the target holding its contents followed by those of the source. -/
theorem vector_add_values (v1 v2 : Vector) (h1 : v1.WF) (h2 : v2.WF)
    (hb : v2.size ≤ INT_MAX + 1) :
    ∃ v1', vector_add v1 v2 = .ok v1' ∧ v1'.WF ∧ v1'.contents = v1.contents ++ v2.contents := by
  obtain ⟨v1a, hw, hc, hrun⟩ := add_loop_steps v2 h2 v2.size 1 0 v1 h1 (by omega) (by omega)
  refine ⟨v1a, ?_, hw, ?_⟩
  · unfold vector_add
    simp only [Nat.cast_zero, wrapInt_zero, zero_add] at hrun
    rw [Nat.add_comm 1 v2.size] at hrun
    rw [hrun, add_loop_exit 0 _ _ v2 (loop_exit v2.size hb)]
  · rw [hc, List.drop_zero, List.take_of_length_le (by rw [h2.length_contents])]

theorem subtract_inner_succ (fuel : Nat) (j i : Int) (vec1 vec2 : Vector) :
    subtract_inner (fuel + 1) j i vec1 vec2 =
      if toSizeT j < vec1.size then
        match vector_get vec1 (toSizeT j) with
        | .error e => .error e
        | .ok a =>
          match vector_get vec2 (toSizeT i) with
          | .error e => .error e
          | .ok b =>
            if a = b then vector_remove vec1 (toSizeT j)
            else subtract_inner fuel (wrapInt (j + 1)) i vec1 vec2
      else .ok vec1 := rfl

theorem subtract_outer_succ (fuel : Nat) (i : Int) (vec1 vec2 : Vector) :
    subtract_outer (fuel + 1) i vec1 vec2 =
      if toSizeT i < vec2.size then
        match subtract_inner (vec1.size + 1) 0 i vec1 vec2 with
        | .error e => .error e
        | .ok vec1a => subtract_outer fuel (wrapInt (i + 1)) vec1a vec2
      else .ok vec1 := rfl

theorem getElem?_length_append (pre rest : List Int) (a : Int) :
    (pre ++ a :: rest)[pre.length]? = some a := by
  rw [List.getElem?_append_right (le_refl _)]; simp

theorem eraseIdx_length_append (pre rest : List Int) (a : Int) :
    (pre ++ a :: rest).eraseIdx pre.length = pre ++ rest := by
  rw [List.eraseIdx_append_of_length_le (le_refl _)]; simp

/-- The inner loop of `vector_subtract` on a target of at most `INT_MAX + 1` elements:
it erases the first element equal to `b`, if there is one. -/
theorem subtract_inner_values (v1 v2 : Vector) (i : Int) (b : Int) (h1 : v1.WF)
    (hsz : v1.size ≤ INT_MAX + 1) (hget : vector_get v2 (toSizeT i) = .ok b) :
    ∀ (rest pre : List Int) (fuel : Nat), v1.contents = pre ++ rest → b ∉ pre →
      rest.length < fuel →
      ∃ v1', subtract_inner fuel (wrapInt (pre.length : Int)) i v1 v2 = .ok v1' ∧ v1'.WF ∧
        v1'.contents = pre ++ rest.erase b ∧ v1'.capacity = v1.capacity ∧
        v1'.size ≤ v1.size := by
  have hlen := h1.length_contents
  intro rest
  induction rest with
  | nil =>
    intro pre fuel hc _ hf
    obtain ⟨fuel, rfl⟩ : ∃ f, fuel = f + 1 := ⟨fuel - 1, by simp at hf; omega⟩
    have hn : pre.length = v1.size := by rw [← hlen, hc]; simp
    refine ⟨v1, ?_, h1, by simpa using hc, rfl, le_refl _⟩
    rw [subtract_inner_succ, if_neg (by rw [hn]; exact loop_exit v1.size hsz)]
  | cons a rest ih =>
    intro pre fuel hc hpre hf
    obtain ⟨fuel, rfl⟩ : ∃ f, fuel = f + 1 := ⟨fuel - 1, by simp at hf; omega⟩
    have hj : pre.length < v1.size := by rw [← hlen, hc]; simp
    have hsm : toSizeT (wrapInt (pre.length : Int)) = pre.length :=
      toSizeT_small _ (by omega)
    have hga : vector_get v1 pre.length = .ok a := by
      rw [vector_get_wf v1 _ h1, getSpec, hc, getElem?_length_append]
    rw [subtract_inner_succ, hsm, if_pos hj, hga]
    simp only []
    rw [hget]
    simp only []
    by_cases hab : a = b
    · rw [if_pos hab]
      obtain ⟨v1a, hrm, hwa, hca, hsa, hcapa⟩ := vector_remove_layout v1 pre.length h1 hj hsz
      refine ⟨v1a, hrm, hwa, ?_, hcapa, by omega⟩
      rw [hca, hc, eraseIdx_length_append, hab, List.erase_cons_head]
    · rw [if_neg hab, wrapInt_succ]
      have hnot : b ∉ pre ++ [a] := by
        simp only [List.mem_append, List.mem_singleton, not_or]
        exact ⟨hpre, fun h => hab h.symm⟩
      obtain ⟨v1a, hrun, hwa, hca, hcapa, hsa⟩ :=
        ih (pre ++ [a]) fuel (by simp [hc]) hnot (by simp at hf; omega)
      simp only [List.length_append, List.length_singleton] at hrun
      refine ⟨v1a, hrun, hwa, ?_, hcapa, hsa⟩
      rw [hca, List.erase_cons_tail (by simpa using hab)]
      simp

/-- Run of `k` iterations of the outer loop of `vector_subtract` from counter `i`, as
long as the counter stays within `INT_MAX + 1`. -/
theorem subtract_outer_steps (v2 : Vector) (h2 : v2.WF) :
    ∀ (k fuel i : Nat) (v1 : Vector), v1.WF → v1.size ≤ INT_MAX + 1 → i + k ≤ v2.size →
      i + k ≤ INT_MAX + 1 →
      ∃ v1', v1'.WF ∧
        v1'.contents = ((v2.contents.drop i).take k).foldl List.erase v1.contents ∧
        v1'.capacity = v1.capacity ∧ v1'.size ≤ v1.size ∧
        subtract_outer (fuel + k) (wrapInt (i : Int)) v1 v2
          = subtract_outer fuel (wrapInt ((i + k : Nat) : Int)) v1' v2 := by
  intro k
  induction k with
  | zero => intro fuel i v1 h1 _ _ _; exact ⟨v1, h1, by simp, rfl, le_refl _, rfl⟩
  | succ k ih =>
    intro fuel i v1 h1 hsz hi hb
    obtain ⟨b, hb1, hget⟩ := vector_get_some v2 i h2 (by omega)
    have hsm : toSizeT (wrapInt (i : Int)) = i := toSizeT_small i (by omega)
    have hlt : toSizeT (wrapInt (i : Int)) < v2.size := by rw [hsm]; omega
    rw [← hsm] at hget
    obtain ⟨v1a, hin, hwa, hca, hcapa, hsa⟩ :=
      subtract_inner_values v1 v2 (wrapInt (i : Int)) b h1 hsz hget v1.contents [] (v1.size + 1)
        rfl (by simp) (by rw [h1.length_contents]; omega)
    simp only [List.length_nil, Nat.cast_zero, wrapInt_zero, List.nil_append] at hin hca
    obtain ⟨v1b, hwb, hcb, hcapb, hsb, hrun⟩ :=
      ih fuel (i + 1) v1a hwa (by omega) (by omega) (by omega)
    refine ⟨v1b, hwb, ?_, by omega, by omega, ?_⟩
    · rw [hcb, hca, drop_take_succ _ i k b hb1, List.foldl_cons]
    · show subtract_outer ((fuel + k) + 1) _ v1 v2 = _
      rw [subtract_outer_succ, if_pos hlt, hin]
      simp only []
      rw [wrapInt_succ i, hrun]
      have e1 : i + 1 + k = i + (k + 1) := by omega
      rw [e1]

theorem subtract_outer_exit (fuel : Nat) (c : Int) (v1 v2 : Vector)
    (h : ¬ (toSizeT c < v2.size)) : subtract_outer (fuel + 1) c v1 v2 = .ok v1 := by
  rw [subtract_outer_succ, if_neg h]

/-- On well-formed vectors of size at most `INT_MAX + 1`, `vector_subtract` leaves the
target holding the left fold of `List.erase` over the source contents. -/
theorem vector_subtract_values (v1 v2 : Vector) (h1 : v1.WF) (h2 : v2.WF)
    (hb1 : v1.size ≤ INT_MAX + 1) (hb2 : v2.size ≤ INT_MAX + 1) :
    ∃ v1', vector_subtract v1 v2 = .ok v1' ∧ v1'.WF ∧
      v1'.contents = v2.contents.foldl List.erase v1.contents ∧
      v1'.capacity = v1.capacity ∧ v1'.size ≤ v1.size := by
  obtain ⟨v1a, hw, hc, hcap, hsz, hrun⟩ :=
    subtract_outer_steps v2 h2 v2.size 1 0 v1 h1 hb1 (by omega) (by omega)
  refine ⟨v1a, ?_, hw, ?_, hcap, hsz⟩
  · unfold vector_subtract
    simp only [Nat.cast_zero, wrapInt_zero, zero_add] at hrun
    rw [Nat.add_comm 1 v2.size] at hrun
    rw [hrun, subtract_outer_exit 0 _ _ v2 (loop_exit v2.size hb2)]
  · rw [hc, List.drop_zero, List.take_of_length_le (by rw [h2.length_contents])]

theorem load_error (p : Option (List Cell)) (k : Int) (e : Error)
    (h : load p k = .error e) : e = .MemoryFault := by
  unfold load at h
  split at h
  · injection h with h; exact h.symm
  · split at h
    · split at h
      · cases h
      · injection h with h; exact h.symm
    · injection h with h; exact h.symm

theorem store_error (p : Option (List Cell)) (k x : Int) (e : Error)
    (h : store p k x = .error e) : e = .MemoryFault := by
  unfold store at h
  split at h
  · injection h with h; exact h.symm
  · split at h
    · cases h
    · injection h with h; exact h.symm

theorem remove_loop_succ (fuel : Nat) (i : Int) (vec : Vector) :
    remove_loop (fuel + 1) i vec =
      if toSizeT i < vec.size - 1 then
        match load vec.data (wrapInt (i + 1)) with
        | .error e => .error e
        | .ok x =>
          match store vec.data i x with
          | .error e => .error e
          | .ok d => remove_loop fuel (wrapInt (i + 1)) { vec with data := d }
      else .ok vec := rfl

theorem remove_loop_error (fuel : Nat) :
    ∀ (i : Int) (vec : Vector) (e : Error), remove_loop fuel i vec = .error e →
      e = .MemoryFault ∨ e = .OutOfFuel := by
  induction fuel with
  | zero => intro i vec e h; right; rw [remove_loop] at h; injection h with h; exact h.symm
  | succ fuel ih =>
    intro i vec e h
    rw [remove_loop_succ] at h
    split at h
    · cases hl : load vec.data (wrapInt (i + 1)) with
      | error e1 =>
        rw [hl] at h; simp only [] at h
        injection h with h; subst h; left; exact load_error _ _ _ hl
      | ok x =>
        rw [hl] at h; simp only [] at h
        cases hs : store vec.data i x with
        | error e1 =>
          rw [hs] at h; simp only [] at h
          injection h with h; subst h; left; exact store_error _ _ _ _ hs
        | ok d =>
          rw [hs] at h; simp only [] at h
          exact ih _ _ _ h
    · cases h

theorem vector_get_oob_iff (v : Vector) (i : Nat) :
    vector_get v i = .error .IndexOutOfBounds ↔ v.size ≤ i := by
  constructor
  · intro h
    by_contra hlt
    unfold vector_get at h
    rw [if_neg hlt] at h
    have := load_error _ _ _ h
    cases this
  · intro h
    unfold vector_get
    rw [if_pos h]

theorem vector_set_oob_iff (v : Vector) (i : Nat) (x : Int) :
    vector_set v i x = .error .IndexOutOfBounds ↔ v.size ≤ i := by
  constructor
  · intro h
    by_contra hlt
    unfold vector_set at h
    rw [if_neg hlt] at h
    cases hs : store v.data (i : Int) x with
    | error e1 =>
      rw [hs] at h; simp only [] at h
      injection h with h; subst h
      have := store_error _ _ _ _ hs
      cases this
    | ok d => rw [hs] at h; cases h
  · intro h
    unfold vector_set
    rw [if_pos h]

theorem vector_remove_oob_iff (v : Vector) (i : Nat) :
    vector_remove v i = .error .IndexOutOfBounds ↔ v.size ≤ i := by
  constructor
  · intro h
    by_contra hlt
    unfold vector_remove at h
    rw [if_neg hlt] at h
    cases hs : remove_loop (v.size + 1) (toInt i) v with
    | error e1 =>
      rw [hs] at h; simp only [] at h
      injection h with h; subst h
      rcases remove_loop_error _ _ _ _ hs with h1 | h1 <;> cases h1
    | ok d => rw [hs] at h; cases h
  · intro h
    unfold vector_remove
    rw [if_pos h]

theorem getSpec_append_left (l : List Int) (x : Int) (i : Nat) (h : i < l.length) :
    getSpec (l ++ [x]) i = getSpec l i := by
  unfold getSpec
  rw [List.getElem?_append_left h]

theorem getSpec_append_length (l : List Int) (x : Int) :
    getSpec (l ++ [x]) l.length = .ok x := by
  unfold getSpec
  rw [List.getElem?_append_right (le_refl _)]
  simp

theorem getSpec_set_self (l : List Int) (i : Nat) (x : Int) (h : i < l.length) :
    getSpec (l.set i x) i = .ok x := by
  unfold getSpec
  rw [List.getElem?_set_self h]

theorem getSpec_set_other (l : List Int) (i j : Nat) (x : Int) (h : i ≠ j) :
    getSpec (l.set i x) j = getSpec l j := by
  unfold getSpec
  rw [List.getElem?_set_ne h]

theorem vector_get_error (v : Vector) (i : Nat) (e : Error) (h : vector_get v i = .error e) :
    e = .IndexOutOfBounds ∨ e = .MemoryFault := by
  unfold vector_get at h
  split at h
  · injection h with h; left; exact h.symm
  · right; exact load_error _ _ _ h

theorem multiply_loop_error (fuel : Nat) :
    ∀ (i result : Int) (v1 v2 : Vector) (e : Error),
      multiply_loop fuel i result v1 v2 = .error e → e ≠ .LengthMismatch := by
  induction fuel with
  | zero =>
    intro i result v1 v2 e h
    rw [multiply_loop] at h; injection h with h; subst h; simp
  | succ fuel ih =>
    intro i result v1 v2 e h
    rw [multiply_loop_succ] at h
    split at h
    · cases h1 : vector_get v1 (toSizeT i) with
      | error e1 =>
        rw [h1] at h; simp only [] at h
        injection h with h; subst h
        rcases vector_get_error _ _ _ h1 with h2 | h2 <;> rw [h2] <;> simp
      | ok a =>
        rw [h1] at h; simp only [] at h
        cases h2 : vector_get v2 (toSizeT i) with
        | error e1 =>
          rw [h2] at h; simp only [] at h
          injection h with h; subst h
          rcases vector_get_error _ _ _ h2 with h3 | h3 <;> rw [h3] <;> simp
        | ok b =>
          rw [h2] at h; simp only [] at h
          exact ih _ _ _ _ _ h
    · cases h

theorem vector_multiply_mismatch_iff (a b : Vector) :
    vector_multiply a b = .error .LengthMismatch ↔ a.size ≠ b.size := by
  constructor
  · intro h heq
    unfold vector_multiply at h
    rw [if_neg (by simpa using heq)] at h
    exact multiply_loop_error _ _ _ _ _ _ h rfl
  · intro h
    unfold vector_multiply
    rw [if_pos h]

theorem wrapInt_of_fits (z : Int) (h1 : -2147483648 ≤ z) (h2 : z ≤ 2147483647) :
    wrapInt z = z := by
  unfold wrapInt; omega

theorem contents_eq_nil (v : Vector) (h : v.size = 0) : v.contents = [] := by
  simp [Vector.contents, h]

theorem mkVector_wf (l : List Int) (spare : Nat) :
    (mkVector l spare).WF ∧ (mkVector l spare).contents = l :=
  wf_of_layout (mkVector l spare) l (List.replicate spare none) rfl rfl
    (by simp [mkVector])

theorem mkVector_size (l : List Int) (spare : Nat) : (mkVector l spare).size = l.length := rfl

theorem toSizeT_wrapped :
    toSizeT (wrapInt ((INT_MAX + 1 : Nat) : Int)) = 18446744071562067968 := by
  decide

/-- When the first loop test of `vector_remove` fails, only `size` is decremented. -/
theorem vector_remove_skip (v : Vector) (index : Nat) (h1 : index < v.size)
    (h2 : ¬ (toSizeT (toInt index) < v.size - 1)) :
    vector_remove v index = .ok { v with size := v.size - 1 } := by
  unfold vector_remove
  rw [if_neg (by omega), remove_loop_succ, if_neg h2]

/-- What `vector_remove` leaves when its loop does not run: only the last element
is dropped. -/
theorem vector_remove_skip_mk (r : List Int) (x : Int) (spare index : Nat)
    (h1 : index < r.length)
    (h2 : ¬ (toSizeT (toInt index) < r.length)) :
    ∃ v', vector_remove (mkVector (r ++ [x]) spare) index = .ok v' ∧ v'.WF ∧
      v'.contents = r ∧ v'.size = r.length := by
  have hsz : (mkVector (r ++ [x]) spare).size = r.length + 1 := by simp [mkVector]
  obtain ⟨hw, hc⟩ := wf_of_layout
    { mkVector (r ++ [x]) spare with size := (mkVector (r ++ [x]) spare).size - 1 }
    r ([some x] ++ List.replicate spare none)
    (by simp [Vector.buffer, mkVector])
    (by simp [mkVector])
    (by simp [mkVector]; omega)
  refine ⟨_, vector_remove_skip _ index (by omega) (by rw [hsz]; simpa using h2), hw, hc, ?_⟩
  simp [mkVector]

theorem eraseIdx_append_singleton (r : List Int) (x : Int) (i : Nat) (h : i < r.length) :
    (r ++ [x]).eraseIdx i = r.eraseIdx i ++ [x] :=
  List.eraseIdx_append_of_lt_length h [x]

theorem eraseIdx_replicate (n i : Nat) (a : Int) (h : i < n + 1) :
    (List.replicate (n + 1) a).eraseIdx i = List.replicate n a := by
  apply List.ext_getElem
  · simp [List.length_eraseIdx, h]
  · intro k h1 h2
    simp [List.getElem_eraseIdx]

theorem removeInput_length :
    (List.replicate (INT_MAX + 2) (0 : Int)).length = INT_MAX + 2 := List.length_replicate _ _

theorem removeInput_skip :
    ¬ (toSizeT (toInt (INT_MAX + 1)) < (List.replicate (INT_MAX + 2) (0 : Int)).length) := by
  rw [removeInput_length, toInt, toSizeT_wrapped]
  unfold INT_MAX
  omega

theorem counted_le (n : Nat) : counted n ≤ n := by unfold counted; omega

theorem counted_le_max (n : Nat) : counted n ≤ INT_MAX + 1 := by unfold counted; omega

theorem counted_exit (n : Nat) (h : n ≤ 18446744071562067968) :
    ¬ (toSizeT (wrapInt ((counted n : Nat) : Int)) < n) := by
  unfold counted INT_MAX toSizeT wrapInt
  omega

/-- What `vector_add` does for a source of any realistic size: only the first
`counted size` source elements are appended. -/
theorem vector_add_counted (v1 v2 : Vector) (h1 : v1.WF) (h2 : v2.WF)
    (hb : v2.size ≤ 18446744071562067968) :
    ∃ v1', vector_add v1 v2 = .ok v1' ∧ v1'.WF ∧
      v1'.contents = v1.contents ++ v2.contents.take (counted v2.size) := by
  obtain ⟨v1a, hw, hc, hrun⟩ := add_loop_steps v2 h2 (counted v2.size)
    (v2.size - counted v2.size + 1) 0 v1 h1
    (by have := counted_le v2.size; omega) (by have := counted_le_max v2.size; omega)
  refine ⟨v1a, ?_, hw, ?_⟩
  · unfold vector_add
    have hf : v2.size - counted v2.size + 1 + counted v2.size = v2.size + 1 := by
      have := counted_le v2.size; omega
    simp only [Nat.cast_zero, wrapInt_zero, zero_add] at hrun
    rw [hf] at hrun
    rw [hrun, add_loop_exit _ _ _ v2 (counted_exit v2.size hb)]
  · rw [hc, List.drop_zero]

/-- What `vector_multiply` does for any realistic size: only the first `counted size`
products are added. -/
theorem vector_multiply_counted (v1 v2 : Vector) (h1 : v1.WF) (h2 : v2.WF)
    (hs : v1.size = v2.size) (hb : v1.size ≤ 18446744071562067968) :
    vector_multiply v1 v2
      = .ok (wrapInt ((products v1.contents v2.contents).take (counted v1.size)).sum) := by
  unfold vector_multiply
  rw [if_neg (by simpa using hs)]
  have := multiply_loop_steps v1 v2 h1 h2 hs (counted v1.size)
    (v1.size - counted v1.size + 1) 0 0
    (by have := counted_le v1.size; omega) (by have := counted_le_max v1.size; omega)
  have hf : v1.size - counted v1.size + 1 + counted v1.size = v1.size + 1 := by
    have := counted_le v1.size; omega
  simp only [Nat.cast_zero, wrapInt_zero, zero_add, List.drop_zero] at this
  rw [hf] at this
  rw [this, multiply_loop_exit _ _ _ v1 v2 (counted_exit v1.size hb)]

/-- What `vector_subtract` does for a source of any realistic size: only the first
`counted size` source elements are looked at. -/
theorem vector_subtract_counted (v1 v2 : Vector) (h1 : v1.WF) (h2 : v2.WF)
    (hb1 : v1.size ≤ INT_MAX + 1) (hb2 : v2.size ≤ 18446744071562067968) :
    ∃ v1', vector_subtract v1 v2 = .ok v1' ∧ v1'.WF ∧
      v1'.contents = (v2.contents.take (counted v2.size)).foldl List.erase v1.contents ∧
      v1'.capacity = v1.capacity ∧ v1'.size ≤ v1.size := by
  obtain ⟨v1a, hw, hc, hcap, hsz, hrun⟩ := subtract_outer_steps v2 h2 (counted v2.size)
    (v2.size - counted v2.size + 1) 0 v1 h1 hb1
    (by have := counted_le v2.size; omega) (by have := counted_le_max v2.size; omega)
  refine ⟨v1a, ?_, hw, ?_, hcap, hsz⟩
  · unfold vector_subtract
    have hf : v2.size - counted v2.size + 1 + counted v2.size = v2.size + 1 := by
      have := counted_le v2.size; omega
    simp only [Nat.cast_zero, wrapInt_zero, zero_add] at hrun
    rw [hf] at hrun
    rw [hrun, subtract_outer_exit _ _ _ v2 (counted_exit v2.size hb2)]
  · rw [hc, List.drop_zero]

theorem zeros_then_facts (x : Int) (spare : Nat) :
    (mkVector (List.replicate (INT_MAX + 1) 0 ++ [x]) spare).WF ∧
    (mkVector (List.replicate (INT_MAX + 1) 0 ++ [x]) spare).contents
      = List.replicate (INT_MAX + 1) 0 ++ [x] ∧
    (mkVector (List.replicate (INT_MAX + 1) 0 ++ [x]) spare).size = INT_MAX + 2 ∧
    counted (INT_MAX + 2) = INT_MAX + 1 ∧
    (List.replicate (INT_MAX + 1) (0 : Int) ++ [x]).take (INT_MAX + 1)
      = List.replicate (INT_MAX + 1) 0 ∧
    INT_MAX + 2 ≤ 18446744071562067968 := by
  obtain ⟨hw, hc⟩ := mkVector_wf (List.replicate (INT_MAX + 1) 0 ++ [x]) spare
  refine ⟨hw, hc, ?_, ?_, ?_, ?_⟩
  · rw [mkVector_size, List.length_append, List.length_replicate, List.length_singleton]
  · unfold counted; omega
  · exact List.take_left' (List.length_replicate _ _)
  · unfold INT_MAX; omega

theorem replicate_succ_ne (n : Nat) (a b : Int) (l : List Int) :
    l ++ List.replicate n a ≠ l ++ (List.replicate n a ++ [b]) := by
  intro heq
  have := congrArg List.length heq
  simp at this

theorem sum_replicate_zero (n : Nat) : (List.replicate n (0 : Int)).sum = 0 := by
  induction n with
  | zero => rfl
  | succ n ih => rw [List.replicate_succ, List.sum_cons, ih]; rfl

theorem foldl_erase_replicate (l : List Int) (a : Int) (h : a ∉ l) (n : Nat) :
    (List.replicate n a).foldl List.erase l = l := by
  induction n with
  | zero => rfl
  | succ n ih => rw [List.replicate_succ, List.foldl_cons, List.erase_of_not_mem h, ih]

theorem products_zeros (n : Nat) : ∀ l : List Int, (products (List.replicate n 0) l).sum = 0 := by
  induction n with
  | zero => intro l; simp [products]
  | succ n ih =>
    intro l
    cases l with
    | nil => simp [products]
    | cons b l =>
      have := ih l
      simp only [products] at this ⊢
      rw [List.replicate_succ, List.zipWith_cons_cons, List.sum_cons, this]
      simp

theorem products_append_singleton (r1 r2 : List Int) (x y : Int) (h : r1.length = r2.length) :
    products (r1 ++ [x]) (r2 ++ [y]) = products r1 r2 ++ [x * y] := by
  unfold products
  rw [List.zipWith_append _ _ _ _ _ h]
  rfl

theorem vector_add_bigSource :
    ∃ v', vector_add smallTarget bigSource = .ok v' ∧ v'.WF ∧
      v'.contents = [5] ++ List.replicate (INT_MAX + 1) 0 := by
  obtain ⟨hw2, hc2, hs2, hcnt, htake, hbound⟩ := zeros_then_facts 1 INT_MAX
  obtain ⟨hw1, hc1⟩ := mkVector_wf [5] 0
  obtain ⟨v', hadd, hw, hc⟩ := vector_add_counted smallTarget bigSource hw1 hw2
    (by rw [bigSource, hs2]; exact hbound)
  refine ⟨v', hadd, hw, ?_⟩
  rw [hc, smallTarget, hc1, bigSource, hs2, hcnt, hc2, htake]

theorem grownCapacity_full (v : Vector) (h : v.size = v.capacity) :
    grownCapacity v = max 1 (2 * v.capacity) := by
  unfold grownCapacity
  rw [if_pos h]
  split <;> omega

theorem grownCapacity_spare (v : Vector) (h : v.size < v.capacity) :
    grownCapacity v = v.capacity := by
  unfold grownCapacity
  rw [if_neg (by omega)]

theorem vector_append_shape (v v' : Vector) (x : Int) (h : vector_append v x = .ok v') :
    v'.size = v.size + 1 ∧ v'.capacity = grownCapacity v := by
  unfold vector_append at h
  unfold grownCapacity
  by_cases hf : v.size = v.capacity
  · simp only [hf, if_true] at h ⊢
    split at h
    · cases h
    · injection h with h; subst h; exact ⟨rfl, rfl⟩
  · simp only [hf, if_false] at h ⊢
    split at h
    · cases h
    · injection h with h; subst h; exact ⟨rfl, rfl⟩

theorem vector_set_shape (v v' : Vector) (i : Nat) (x : Int) (h : vector_set v i x = .ok v') :
    v'.size = v.size ∧ v'.capacity = v.capacity := by
  unfold vector_set at h
  split at h
  · cases h
  · split at h
    · cases h
    · injection h with h; subst h; exact ⟨rfl, rfl⟩

theorem remove_loop_shape (fuel : Nat) :
    ∀ (i : Int) (v v' : Vector), remove_loop fuel i v = .ok v' →
      v'.size = v.size ∧ v'.capacity = v.capacity := by
  induction fuel with
  | zero => intro i v v' h; rw [remove_loop] at h; cases h
  | succ fuel ih =>
    intro i v v' h
    rw [remove_loop_succ] at h
    split at h
    · split at h
      · cases h
      · split at h
        · cases h
        · have := ih _ _ _ h
          exact this
    · injection h with h; subst h; exact ⟨rfl, rfl⟩

theorem vector_remove_shape (v v' : Vector) (i : Nat) (h : vector_remove v i = .ok v') :
    v'.size = v.size - 1 ∧ v'.capacity = v.capacity ∧ i < v.size := by
  unfold vector_remove at h
  split at h
  · cases h
  · rename_i hlt
    split at h
    · cases h
    · rename_i v1 hv1
      injection h with h; subst h
      obtain ⟨h1, h2⟩ := remove_loop_shape _ _ _ _ hv1
      exact ⟨by simp [h1], h2, by omega⟩

theorem add_loop_shape (fuel : Nat) :
    ∀ (i : Int) (v1 v2 v' : Vector), v1.size ≤ v1.capacity → add_loop fuel i v1 v2 = .ok v' →
      v'.size ≤ v'.capacity := by
  induction fuel with
  | zero => intro i v1 v2 v' _ h; rw [add_loop] at h; cases h
  | succ fuel ih =>
    intro i v1 v2 v' hinv h
    rw [add_loop_succ] at h
    split at h
    · split at h
      · cases h
      · split at h
        · cases h
        · rename_i x _ v1a hap
          obtain ⟨hs, hc⟩ := vector_append_shape _ _ _ hap
          refine ih _ v1a v2 v' ?_ h
          rw [hs, hc]; unfold grownCapacity
          split
          · split <;> omega
          · omega
    · injection h with h; subst h; exact hinv

theorem subtract_inner_shape (fuel : Nat) :
    ∀ (j i : Int) (v1 v2 v' : Vector), subtract_inner fuel j i v1 v2 = .ok v' →
      v'.capacity = v1.capacity ∧ v'.size ≤ v1.size ∧ v1.size ≤ v'.size + 1 := by
  induction fuel with
  | zero => intro j i v1 v2 v' h; rw [subtract_inner] at h; cases h
  | succ fuel ih =>
    intro j i v1 v2 v' h
    rw [subtract_inner_succ] at h
    split at h
    · split at h
      · cases h
      · split at h
        · cases h
        · split at h
          · obtain ⟨hs, hc, -⟩ := vector_remove_shape _ _ _ h
            exact ⟨hc, by omega, by omega⟩
          · exact ih _ _ _ _ _ h
    · injection h with h; subst h; exact ⟨rfl, le_refl _, by omega⟩

theorem subtract_outer_shape (fuel : Nat) :
    ∀ (i : Int) (v1 v2 v' : Vector), subtract_outer fuel i v1 v2 = .ok v' →
      v'.capacity = v1.capacity ∧ v'.size ≤ v1.size ∧ v1.size + 1 ≤ v'.size + fuel := by
  induction fuel with
  | zero => intro i v1 v2 v' h; rw [subtract_outer] at h; cases h
  | succ fuel ih =>
    intro i v1 v2 v' h
    rw [subtract_outer_succ] at h
    split at h
    · split at h
      · cases h
      · rename_i v1a hin
        obtain ⟨hc1, hs1, hs2⟩ := subtract_inner_shape _ _ _ _ _ _ hin
        obtain ⟨hc2, hs3, hs4⟩ := ih _ _ _ _ h
        exact ⟨hc2.trans hc1, by omega, by omega⟩
    · injection h with h; subst h; exact ⟨rfl, le_refl _, by omega⟩

theorem vector_subtract_shape (v1 v2 v' : Vector) (h : vector_subtract v1 v2 = .ok v') :
    v'.capacity = v1.capacity ∧ v'.size ≤ v1.size ∧ v1.size - v2.size ≤ v'.size := by
  obtain ⟨hc, hs1, hs2⟩ := subtract_outer_shape _ _ _ _ _ h
  exact ⟨hc, hs1, by omega⟩

theorem grownCapacity_gt (v : Vector) (h : v.size ≤ v.capacity) :
    v.size + 1 ≤ grownCapacity v := by
  unfold grownCapacity
  split
  · split <;> omega
  · omega

theorem reachable_size_le (v : Vector) (h : Reachable v) : v.size ≤ v.capacity := by
  induction h with
  | init => exact le_refl _
  | append v v' x _ hap ih =>
    obtain ⟨hs, hc⟩ := vector_append_shape _ _ _ hap
    rw [hs, hc]; exact grownCapacity_gt v ih
  | set v v' i x _ hset ih =>
    obtain ⟨hs, hc⟩ := vector_set_shape _ _ _ _ hset
    rw [hs, hc]; exact ih
  | remove v v' i _ hrm ih =>
    obtain ⟨hs, hc, -⟩ := vector_remove_shape _ _ _ hrm
    rw [hs, hc]; omega
  | add v1 v2 v' _ _ hadd ih1 _ => exact add_loop_shape _ _ _ _ _ ih1 hadd
  | subtract v1 v2 v' _ _ hsub ih1 _ =>
    obtain ⟨hc, hs, -⟩ := vector_subtract_shape _ _ _ hsub
    rw [hc]; omega
  | free v _ _ => exact le_refl _

theorem tight_append (v v' : Vector) (x : Int) (ht : Tight v)
    (hap : vector_append v x = .ok v') :
    ∃ k, v'.capacity = 2 ^ k ∧ v'.size ≤ 2 ^ k ∧ 2 ^ k < 2 * v'.size := by
  obtain ⟨hs, hc⟩ := vector_append_shape _ _ _ hap
  rw [hs, hc]
  unfold grownCapacity
  rcases ht with ⟨h0, hc0⟩ | ⟨k, hk, hle, hlt⟩
  · refine ⟨0, ?_⟩
    rw [h0, hc0]; simp
  · by_cases hf : v.size = v.capacity
    · refine ⟨k + 1, ?_⟩
      have hpos : 0 < 2 ^ k := Nat.two_pow_pos k
      have h2 : 2 ^ (k + 1) = 2 * 2 ^ k := by rw [pow_succ]; omega
      rw [if_pos hf, if_neg (by omega), h2]
      omega
    · refine ⟨k, ?_⟩
      rw [if_neg hf]
      omega

theorem append_all_tight :
    ∀ (l : List Int) (v : Vector), v.WF → Tight v →
      ∃ v', append_all v l = .ok v' ∧ v'.WF ∧ Tight v' ∧ v'.size = v.size + l.length ∧
        v'.contents = v.contents ++ l := by
  intro l
  induction l with
  | nil => intro v hw ht; exact ⟨v, rfl, hw, ht, rfl, by simp⟩
  | cons x xs ih =>
    intro v hw ht
    obtain ⟨v1, hap, hw1, hc1, hs1, -⟩ := vector_append_layout v x hw
    obtain ⟨v', hall, hw', ht', hs', hc'⟩ := ih v1 hw1 (Or.inr (tight_append v v1 x ht hap))
    refine ⟨v', ?_, hw', ht', ?_, ?_⟩
    · rw [append_all, hap]; exact hall
    · rw [hs', hs1, List.length_cons]; omega
    · rw [hc', hc1]; simp

theorem pow_two_least (k j n : Nat) (h1 : 2 ^ k < 2 * n) (h2 : n ≤ 2 ^ j) : 2 ^ k ≤ 2 ^ j := by
  by_contra hlt
  have hjk : j < k := by
    by_contra hge
    exact hlt (Nat.pow_le_pow_right (by decide) (by omega))
  have h3 : 2 ^ (j + 1) ≤ 2 ^ k := Nat.pow_le_pow_right (by decide) hjk
  have h4 : 2 ^ (j + 1) = 2 * 2 ^ j := by rw [pow_succ]; omega
  omega

theorem core_reachable_capacity (v : Vector) (h : CoreReachable v) :
    v.capacity = 0 ∨ ∃ k, v.capacity = 2 ^ k := by
  induction h with
  | init => left; rfl
  | append v v' x _ hap ih =>
    obtain ⟨-, hc⟩ := vector_append_shape _ _ _ hap
    rw [hc]; unfold grownCapacity
    by_cases hf : v.size = v.capacity
    · rw [if_pos hf]
      by_cases h0 : v.capacity = 0
      · rw [if_pos h0]; exact Or.inr ⟨0, rfl⟩
      · rw [if_neg h0]
        rcases ih with h | ⟨k, hk⟩
        · exact absurd h h0
        · exact Or.inr ⟨k + 1, by rw [hk, pow_succ]⟩
    · rw [if_neg hf]; exact ih
  | set v v' i x _ hset ih =>
    obtain ⟨-, hc⟩ := vector_set_shape _ _ _ _ hset
    rw [hc]; exact ih
  | remove v v' i _ hrm ih =>
    obtain ⟨-, hc, -⟩ := vector_remove_shape _ _ _ hrm
    rw [hc]; exact ih

theorem Vector.WF.size_le_limit {v : Vector} (h : v.WF) (ha : v.Addressable) :
    v.size ≤ 18446744071562067968 := by
  have := h.2.1
  unfold Vector.Addressable sizeof_int at ha
  omega

theorem subtract_inner_exit (fuel : Nat) (c i : Int) (v1 v2 : Vector)
    (h : ¬ (toSizeT c < v1.size)) : subtract_inner (fuel + 1) c i v1 v2 = .ok v1 := by
  rw [subtract_inner_succ, if_neg h]

/-- Run of `k` iterations of the inner loop of `vector_subtract` over positions
whose elements all differ from the element looked for. -/
theorem subtract_inner_skip (v1 v2 : Vector) (i : Int) (b : Int) (h1 : v1.WF)
    (hget : vector_get v2 (toSizeT i) = .ok b) :
    ∀ (k fuel j : Nat), j + k ≤ v1.size → j + k ≤ INT_MAX + 1 →
      (∀ a, a ∈ (v1.contents.drop j).take k → a ≠ b) →
      subtract_inner (fuel + k) (wrapInt (j : Int)) i v1 v2
        = subtract_inner fuel (wrapInt ((j + k : Nat) : Int)) i v1 v2 := by
  intro k
  induction k with
  | zero => intro fuel j _ _ _; rfl
  | succ k ih =>
    intro fuel j hj hb hne
    obtain ⟨x, hx, hgx⟩ := vector_get_some v1 j h1 (by omega)
    have hsm : toSizeT (wrapInt (j : Int)) = j := toSizeT_small j (by omega)
    have hdt := drop_take_succ v1.contents j k x hx
    have hxb : x ≠ b := hne x (by rw [hdt]; exact List.mem_cons_self _ _)
    show subtract_inner ((fuel + k) + 1) _ i v1 v2 = _
    rw [subtract_inner_succ, hsm, if_pos (by omega), hgx]
    simp only []
    rw [hget]
    simp only []
    rw [if_neg hxb, wrapInt_succ, ih fuel (j + 1) (by omega) (by omega)
      (fun a ha => hne a (by rw [hdt]; exact List.mem_cons_of_mem _ ha))]
    have e1 : j + 1 + k = j + (k + 1) := by omega
    rw [e1]

/-- The inner loop of `vector_subtract` leaves the target as it is when none of
the elements it looks at equals the element looked for. -/
theorem subtract_inner_nomatch (v1 v2 : Vector) (i : Int) (b : Int) (h1 : v1.WF)
    (hsz : v1.size ≤ 18446744071562067968)
    (hget : vector_get v2 (toSizeT i) = .ok b)
    (hne : ∀ a, a ∈ v1.contents.take (counted v1.size) → a ≠ b) :
    subtract_inner (v1.size + 1) 0 i v1 v2 = .ok v1 := by
  have hrun := subtract_inner_skip v1 v2 i b h1 hget (counted v1.size)
    (v1.size - counted v1.size + 1) 0
    (by have := counted_le v1.size; omega) (by have := counted_le_max v1.size; omega)
    (by rw [List.drop_zero]; exact hne)
  have hf : v1.size - counted v1.size + 1 + counted v1.size = v1.size + 1 := by
    have := counted_le v1.size; omega
  simp only [Nat.cast_zero, wrapInt_zero, zero_add] at hrun
  rw [hf] at hrun
  rw [hrun, subtract_inner_exit _ _ _ _ _ (counted_exit v1.size hsz)]

/-- Run of `k` iterations of the outer loop of `vector_subtract` over source
elements none of which equals an element the inner loop looks at: the target is
not touched. -/
theorem subtract_outer_skip (v1 v2 : Vector) (h1 : v1.WF) (h2 : v2.WF)
    (hsz : v1.size ≤ 18446744071562067968) :
    ∀ (k fuel i : Nat), i + k ≤ v2.size → i + k ≤ INT_MAX + 1 →
      (∀ b, b ∈ (v2.contents.drop i).take k →
        ∀ a, a ∈ v1.contents.take (counted v1.size) → a ≠ b) →
      subtract_outer (fuel + k) (wrapInt (i : Int)) v1 v2
        = subtract_outer fuel (wrapInt ((i + k : Nat) : Int)) v1 v2 := by
  intro k
  induction k with
  | zero => intro fuel i _ _ _; rfl
  | succ k ih =>
    intro fuel i hi hb hne
    obtain ⟨b, hb1, hget⟩ := vector_get_some v2 i h2 (by omega)
    have hsm : toSizeT (wrapInt (i : Int)) = i := toSizeT_small i (by omega)
    have hdt := drop_take_succ v2.contents i k b hb1
    rw [← hsm] at hget
    have hin := subtract_inner_nomatch v1 v2 (wrapInt (i : Int)) b h1 hsz hget
      (hne b (by rw [hdt]; exact List.mem_cons_self _ _))
    show subtract_outer ((fuel + k) + 1) _ v1 v2 = _
    rw [subtract_outer_succ, hsm, if_pos (by omega), hin]
    simp only []
    rw [wrapInt_succ, ih fuel (i + 1) (by omega) (by omega)
      (fun b' hb' => hne b' (by rw [hdt]; exact List.mem_cons_of_mem _ hb'))]
    have e1 : i + 1 + k = i + (k + 1) := by omega
    rw [e1]

/-- When no source element `vector_subtract` gets to equals a target element its
scan gets to, `vector_subtract` returns the target as it was. -/
theorem vector_subtract_nomatch (v1 v2 : Vector) (h1 : v1.WF) (h2 : v2.WF)
    (hsz1 : v1.size ≤ 18446744071562067968) (hsz2 : v2.size ≤ 18446744071562067968)
    (hne : ∀ b, b ∈ v2.contents.take (counted v2.size) →
      ∀ a, a ∈ v1.contents.take (counted v1.size) → a ≠ b) :
    vector_subtract v1 v2 = .ok v1 := by
  have hrun := subtract_outer_skip v1 v2 h1 h2 hsz1 (counted v2.size)
    (v2.size - counted v2.size + 1) 0
    (by have := counted_le v2.size; omega) (by have := counted_le_max v2.size; omega)
    (by rw [List.drop_zero]; exact hne)
  have hf : v2.size - counted v2.size + 1 + counted v2.size = v2.size + 1 := by
    have := counted_le v2.size; omega
  simp only [Nat.cast_zero, wrapInt_zero, zero_add] at hrun
  rw [hf] at hrun
  unfold vector_subtract
  rw [hrun, subtract_outer_exit _ _ _ v2 (counted_exit v2.size hsz2)]

theorem vector_append_error (v : Vector) (x : Int) (e : Error)
    (h : vector_append v x = .error e) : e = .MemoryFault := by
  unfold vector_append at h
  by_cases hf : v.size = v.capacity
  · simp only [hf, if_true] at h
    split at h
    · rename_i e1 hs
      injection h with h; subst h
      exact store_error _ _ _ _ hs
    · cases h
  · simp only [hf, if_false] at h
    split at h
    · rename_i e1 hs
      injection h with h; subst h
      exact store_error _ _ _ _ hs
    · cases h

theorem vector_get_in_range_error (v : Vector) (i : Nat) (e : Error) (hi : i < v.size)
    (h : vector_get v i = .error e) : e = .MemoryFault := by
  unfold vector_get at h
  rw [if_neg (by omega)] at h
  exact load_error _ _ _ h

theorem vector_remove_in_range_error (v : Vector) (i : Nat) (e : Error) (hi : i < v.size)
    (h : vector_remove v i = .error e) : e = .MemoryFault ∨ e = .OutOfFuel := by
  unfold vector_remove at h
  rw [if_neg (by omega)] at h
  split at h
  · rename_i e1 hl
    injection h with h; subst h
    exact remove_loop_error _ _ _ _ hl
  · cases h

theorem add_loop_error (fuel : Nat) :
    ∀ (i : Int) (v1 v2 : Vector) (e : Error), add_loop fuel i v1 v2 = .error e →
      e = .MemoryFault ∨ e = .OutOfFuel := by
  induction fuel with
  | zero => intro i v1 v2 e h; rw [add_loop] at h; injection h with h; exact Or.inr h.symm
  | succ fuel ih =>
    intro i v1 v2 e h
    rw [add_loop_succ] at h
    by_cases hlt : toSizeT i < v2.size
    · rw [if_pos hlt] at h
      cases hg : vector_get v2 (toSizeT i) with
      | error e1 =>
        rw [hg] at h; simp only [] at h
        injection h with h; subst h
        exact Or.inl (vector_get_in_range_error _ _ _ hlt hg)
      | ok x =>
        rw [hg] at h; simp only [] at h
        cases ha : vector_append v1 x with
        | error e1 =>
          rw [ha] at h; simp only [] at h
          injection h with h; subst h
          exact Or.inl (vector_append_error _ _ _ ha)
        | ok v1a =>
          rw [ha] at h; simp only [] at h
          exact ih _ _ _ _ h
    · rw [if_neg hlt] at h; cases h

theorem subtract_inner_error (fuel : Nat) :
    ∀ (j i : Int) (v1 v2 : Vector) (e : Error), toSizeT i < v2.size →
      subtract_inner fuel j i v1 v2 = .error e → e = .MemoryFault ∨ e = .OutOfFuel := by
  induction fuel with
  | zero =>
    intro j i v1 v2 e _ h; rw [subtract_inner] at h; injection h with h; exact Or.inr h.symm
  | succ fuel ih =>
    intro j i v1 v2 e hi h
    rw [subtract_inner_succ] at h
    by_cases hlt : toSizeT j < v1.size
    · rw [if_pos hlt] at h
      cases hg : vector_get v1 (toSizeT j) with
      | error e1 =>
        rw [hg] at h; simp only [] at h
        injection h with h; subst h
        exact Or.inl (vector_get_in_range_error _ _ _ hlt hg)
      | ok a =>
        rw [hg] at h; simp only [] at h
        cases hg2 : vector_get v2 (toSizeT i) with
        | error e1 =>
          rw [hg2] at h; simp only [] at h
          injection h with h; subst h
          exact Or.inl (vector_get_in_range_error _ _ _ hi hg2)
        | ok b =>
          rw [hg2] at h; simp only [] at h
          by_cases hab : a = b
          · rw [if_pos hab] at h
            exact vector_remove_in_range_error _ _ _ hlt h
          · rw [if_neg hab] at h
            exact ih _ _ _ _ _ hi h
    · rw [if_neg hlt] at h; cases h

theorem subtract_outer_error (fuel : Nat) :
    ∀ (i : Int) (v1 v2 : Vector) (e : Error), subtract_outer fuel i v1 v2 = .error e →
      e = .MemoryFault ∨ e = .OutOfFuel := by
  induction fuel with
  | zero => intro i v1 v2 e h; rw [subtract_outer] at h; injection h with h; exact Or.inr h.symm
  | succ fuel ih =>
    intro i v1 v2 e h
    rw [subtract_outer_succ] at h
    by_cases hlt : toSizeT i < v2.size
    · rw [if_pos hlt] at h
      cases hin : subtract_inner (v1.size + 1) 0 i v1 v2 with
      | error e1 =>
        rw [hin] at h; simp only [] at h
        injection h with h; subst h
        exact subtract_inner_error _ _ _ _ _ _ hlt hin
      | ok v1a =>
        rw [hin] at h; simp only [] at h
        exact ih _ _ _ _ h
    · rw [if_neg hlt] at h; cases h

theorem sum_loop_error (fuel : Nat) :
    ∀ (i : Nat) (acc : Int) (v : Vector) (e : Error), sum_loop fuel i acc v = .error e →
      e = .MemoryFault ∨ e = .OutOfFuel := by
  induction fuel with
  | zero => intro i acc v e h; rw [sum_loop] at h; injection h with h; exact Or.inr h.symm
  | succ fuel ih =>
    intro i acc v e h
    rw [sum_loop] at h
    by_cases hlt : i < v.size
    · rw [if_pos hlt] at h
      cases hg : vector_get v i with
      | error e1 =>
        rw [hg] at h; simp only [] at h
        injection h with h; subst h
        exact Or.inl (vector_get_in_range_error _ _ _ hlt hg)
      | ok x =>
        rw [hg] at h; simp only [] at h
        exact ih _ _ _ _ h
    · rw [if_neg hlt] at h; cases h

theorem multiply_loop_error_kinds (fuel : Nat) :
    ∀ (i result : Int) (v1 v2 : Vector) (e : Error), v1.size = v2.size →
      multiply_loop fuel i result v1 v2 = .error e → e = .MemoryFault ∨ e = .OutOfFuel := by
  induction fuel with
  | zero =>
    intro i result v1 v2 e _ h; rw [multiply_loop] at h; injection h with h; exact Or.inr h.symm
  | succ fuel ih =>
    intro i result v1 v2 e hs h
    rw [multiply_loop_succ] at h
    by_cases hlt : toSizeT i < v1.size
    · rw [if_pos hlt] at h
      cases hg : vector_get v1 (toSizeT i) with
      | error e1 =>
        rw [hg] at h; simp only [] at h
        injection h with h; subst h
        exact Or.inl (vector_get_in_range_error _ _ _ hlt hg)
      | ok a =>
        rw [hg] at h; simp only [] at h
        cases hg2 : vector_get v2 (toSizeT i) with
        | error e1 =>
          rw [hg2] at h; simp only [] at h
          injection h with h; subst h
          exact Or.inl (vector_get_in_range_error _ _ _ (by omega) hg2)
        | ok b =>
          rw [hg2] at h; simp only [] at h
          exact ih _ _ _ _ _ hs h
    · rw [if_neg hlt] at h; cases h

/-- The bounds-checked accessors called by the aggregate operations never take
their error branch, for vectors of any shape and length: `vector_add`,
`vector_subtract`, `vector_sum` and `vector_multiply` never stop with the
"Index out of bounds" diagnostic, and only `vector_multiply` can stop with the
"same size" diagnostic. -/
theorem aggregates_no_index_error (v1 v2 : Vector) :
    vector_add v1 v2 ≠ .error .IndexOutOfBounds ∧
    vector_add v1 v2 ≠ .error .LengthMismatch ∧
    vector_subtract v1 v2 ≠ .error .IndexOutOfBounds ∧
    vector_subtract v1 v2 ≠ .error .LengthMismatch ∧
    vector_sum v1 ≠ .error .IndexOutOfBounds ∧
    vector_sum v1 ≠ .error .LengthMismatch ∧
    vector_multiply v1 v2 ≠ .error .IndexOutOfBounds := by
  refine ⟨?_, ?_, ?_, ?_, ?_, ?_, ?_⟩
  · intro h; rcases add_loop_error _ _ _ _ _ h with h1 | h1 <;> cases h1
  · intro h; rcases add_loop_error _ _ _ _ _ h with h1 | h1 <;> cases h1
  · intro h; rcases subtract_outer_error _ _ _ _ _ h with h1 | h1 <;> cases h1
  · intro h; rcases subtract_outer_error _ _ _ _ _ h with h1 | h1 <;> cases h1
  · intro h; rcases sum_loop_error _ _ _ _ _ h with h1 | h1 <;> cases h1
  · intro h; rcases sum_loop_error _ _ _ _ _ h with h1 | h1 <;> cases h1
  · intro h
    unfold vector_multiply at h
    by_cases hs : v1.size = v2.size
    · rw [if_neg (by simpa using hs)] at h
      rcases multiply_loop_error_kinds _ _ _ _ _ _ hs h with h1 | h1 <;> cases h1
    · rw [if_pos hs] at h; cases h

theorem foldl_erase_append_absent (B : List Int) :
    ∀ A : List Int, (∀ b, b ∈ B → b ∉ A) → B.foldl List.erase (A ++ B) = A := by
  induction B with
  | nil => intro A _; simp
  | cons b B ih =>
    intro A h
    rw [List.foldl_cons, List.erase_append_right _ (h b (List.mem_cons_self _ _)),
      List.erase_cons_head]
    exact ih A (fun c hc => h c (List.mem_cons_of_mem _ hc))

theorem foldl_erase_perm (B : List Int) :
    ∀ X A : List Int, X.Perm (A ++ B) → (B.foldl List.erase X).Perm A := by
  induction B with
  | nil => intro X A h; simpa using h
  | cons b B ih =>
    intro X A h
    rw [List.foldl_cons]
    apply ih
    have h1 : (A ++ b :: B).Perm (b :: (A ++ B)) := List.perm_middle
    have h2 := (h.trans h1).erase b
    rw [List.erase_cons_head] at h2
    exact h2

/-- The round trip within the `int` range: for well-formed vectors with
`size(A) + size(B) ≤ INT_MAX + 1`, merging `B` into `A` and then removing the
elements of `B` returns normally with `size(A)` elements that are a permutation of
the contents of `A`, and exactly the contents of `A` when no value of `B` occurs
in `A`. -/
theorem round_trip_values (a b : Vector) (ha : a.WF) (hb : b.WF)
    (hsz : a.size + b.size ≤ INT_MAX + 1) :
    ∃ m r, vector_add a b = .ok m ∧ vector_subtract m b = .ok r ∧ r.WF ∧
      r.contents.Perm a.contents ∧ r.size = a.size ∧
      ((∀ x, x ∈ b.contents → x ∉ a.contents) → r.contents = a.contents) := by
  obtain ⟨m, hadd, hwm, hcm⟩ := vector_add_values a b ha hb (by omega)
  have hms : m.size = a.size + b.size := by
    rw [← hwm.length_contents, hcm, List.length_append, ha.length_contents,
      hb.length_contents]
  obtain ⟨r, hsub, hwr, hcr, -, -⟩ := vector_subtract_values m b hwm hb (by omega) (by omega)
  have hperm : r.contents.Perm a.contents := by
    rw [hcr, hcm]; exact foldl_erase_perm _ _ _ (List.Perm.refl _)
  refine ⟨m, r, hadd, hsub, hwr, hperm, ?_, ?_⟩
  · rw [← hwr.length_contents, hperm.length_eq, ha.length_contents]
  · intro hdis
    rw [hcr, hcm, foldl_erase_append_absent _ _ hdis]

theorem bigZeros_facts :
    bigZeros.WF ∧ bigZeros.contents = List.replicate (INT_MAX + 1) 0 ∧
    bigZeros.size = INT_MAX + 1 := by
  obtain ⟨hw, hc⟩ := mkVector_wf (List.replicate (INT_MAX + 1) 0) 0
  exact ⟨hw, hc, by rw [bigZeros, mkVector_size, List.length_replicate]⟩

theorem counted_one : counted 1 = 1 := by unfold counted; omega

/-- Merging `unitTarget` (the single element 1) into `bigZeros` (`INT_MAX + 1`
zeros) gives `INT_MAX + 1` zeros and a final 1, and removing the elements of
`unitTarget` from that again changes nothing: the scan of the target stops when
its `int` counter wraps, before it reaches the 1 at index `INT_MAX + 1`. -/
theorem round_trip_bigZeros :
    ∃ m, vector_add bigZeros unitTarget = .ok m ∧ m.WF ∧
      m.contents = List.replicate (INT_MAX + 1) 0 ++ [1] ∧
      vector_subtract m unitTarget = .ok m := by
  obtain ⟨hwz, hcz, hsz⟩ := bigZeros_facts
  obtain ⟨hwu, hcu⟩ := mkVector_wf [1] 0
  obtain ⟨-, -, -, hcnt, htake, hbound⟩ := zeros_then_facts 1 0
  have hus : unitTarget.size = 1 := rfl
  obtain ⟨m, hadd, hwm, hcm⟩ := vector_add_counted bigZeros unitTarget hwz hwu
    (by rw [hus]; decide)
  have hcm2 : m.contents = List.replicate (INT_MAX + 1) 0 ++ [1] := by
    rw [hcm, hcz, hus, counted_one, unitTarget, hcu]; rfl
  have hms : m.size = INT_MAX + 2 := by
    rw [← hwm.length_contents, hcm2, List.length_append, List.length_replicate,
      List.length_singleton]
  refine ⟨m, hadd, hwm, hcm2, ?_⟩
  apply vector_subtract_nomatch m unitTarget hwm hwu (by rw [hms]; exact hbound)
    (by rw [hus]; decide)
  intro b hb a ha hab
  rw [hms, hcnt, hcm2, htake] at ha
  rw [hus, counted_one, unitTarget, hcu] at hb
  have ha0 : a = 0 := (List.mem_replicate.mp ha).2
  have hb1 : b = 1 := by simpa using hb
  rw [ha0, hb1] at hab
  exact absurd hab (by decide)

/-! ## The claims -/

/-- C1: on a well-formed vector `vector_append` returns normally; the new `size`
is the old one plus one, the contents are the old contents followed by `value`,
`vector_get` at the old `size` (the new last index) yields `value`, and
`vector_get` at every earlier index yields what it yielded before, whether or not
the block had to grow. -/
theorem vector_append_correct (v : Vector) (x : Int) (h : v.WF) :
    ∃ v', vector_append v x = .ok v' ∧ v'.WF ∧
      v'.size = v.size + 1 ∧
      v'.contents = v.contents ++ [x] ∧
      vector_get v' v.size = .ok x ∧
      vector_get v' (v'.size - 1) = .ok x ∧
      ∀ i, i < v.size → vector_get v' i = vector_get v i := by
  obtain ⟨v', hap, hw, hc, hs, -⟩ := vector_append_layout v x h
  have hlen := h.length_contents
  have hlast : vector_get v' v.size = .ok x := by
    rw [vector_get_wf v' _ hw, hc, ← hlen, getSpec_append_length]
  refine ⟨v', hap, hw, hs, hc, hlast, ?_, ?_⟩
  · rw [hs, Nat.add_sub_cancel]; exact hlast
  · intro i hi
    rw [vector_get_wf v' _ hw, vector_get_wf v _ h, hc,
      getSpec_append_left _ _ _ (by rw [hlen]; exact hi)]

/-- Instance of C1 on a full block (`size = capacity = 2`), where the append grows
the storage. -/
theorem vector_append_correct_witness :
    ∃ v', vector_append { data := some [some 5, some 6], size := 2, capacity := 2 } 7 = .ok v' ∧
      v'.WF ∧ v'.size = 2 + 1 ∧
      v'.contents
        = (Vector.contents { data := some [some 5, some 6], size := 2, capacity := 2 }) ++ [7] ∧
      vector_get v' 2 = .ok 7 ∧
      vector_get v' (v'.size - 1) = .ok 7 ∧
      ∀ i, i < 2 → vector_get v' i
        = vector_get { data := some [some 5, some 6], size := 2, capacity := 2 } i :=
  vector_append_correct { data := some [some 5, some 6], size := 2, capacity := 2 } 7
    (by decide)

/-- C2, evaluated above `INT_MAX`: on the well-formed vector `removeInput`
(`INT_MAX + 3` elements, the last one 1, all others 0) and the in-range index
`INT_MAX + 1`, the counter `int i = index` becomes negative, the shifting loop
does not run, and `vector_remove` only decrements `size`.  The element that stood
at index `INT_MAX + 2` (the 1) does not move down to index `INT_MAX + 1`, and the
contents left are not the original contents with that index erased. -/
theorem vector_remove_above_int_max :
    removeInput.WF ∧ INT_MAX + 1 < removeInput.size ∧
    vector_get removeInput (INT_MAX + 2) = .ok 1 ∧
    ∃ v', vector_remove removeInput (INT_MAX + 1) = .ok v' ∧
      v'.size = removeInput.size - 1 ∧
      vector_get v' (INT_MAX + 1) = .ok 0 ∧
      v'.contents = List.replicate (INT_MAX + 2) 0 ∧
      removeInput.contents.eraseIdx (INT_MAX + 1) = List.replicate (INT_MAX + 1) 0 ++ [1] := by
  obtain ⟨hw, hc⟩ := mkVector_wf (List.replicate (INT_MAX + 2) 0 ++ [1]) (INT_MAX - 1)
  have hlen := removeInput_length
  have hsz : removeInput.size = INT_MAX + 2 + 1 := by
    rw [removeInput, mkVector_size, List.length_append, hlen, List.length_singleton]
  have hget1 : vector_get removeInput (INT_MAX + 2) = .ok 1 := by
    have := getSpec_append_length (List.replicate (INT_MAX + 2) 0) 1
    rw [hlen] at this
    rw [removeInput, vector_get_wf _ _ hw, hc, this]
  obtain ⟨v', hrm, hw2, hc2, hs2⟩ := vector_remove_skip_mk (List.replicate (INT_MAX + 2) 0) 1
    (INT_MAX - 1) (INT_MAX + 1) (by rw [hlen]; omega) removeInput_skip
  refine ⟨hw, by rw [hsz]; omega, hget1, v', hrm, ?_, ?_, hc2, ?_⟩
  · rw [hs2, hsz, hlen]; rfl
  · rw [vector_get_wf _ _ hw2, hc2, getSpec, List.getElem?_replicate, if_pos (by omega)]
  · rw [removeInput, hc, eraseIdx_append_singleton _ _ _ (by rw [hlen]; omega),
      eraseIdx_replicate (INT_MAX + 1) (INT_MAX + 1) 0 (by omega)]

/-- C3: each of `vector_get`, `vector_set` and `vector_remove` stops with the
"Index out of bounds" diagnostic exactly when `index ≥ size`.  In that case the
outcome is the same whatever `data` is (also `NULL`): the test comes before any
access to the block, nothing is read or written, and no updated vector is produced. -/
theorem index_out_of_bounds_iff (v : Vector) (i : Nat) (x : Int) :
    (vector_get v i = .error .IndexOutOfBounds ↔ v.size ≤ i) ∧
    (vector_set v i x = .error .IndexOutOfBounds ↔ v.size ≤ i) ∧
    (vector_remove v i = .error .IndexOutOfBounds ↔ v.size ≤ i) ∧
    (v.size ≤ i → ∀ d : Option (List Cell),
      vector_get { v with data := d } i = .error .IndexOutOfBounds ∧
      vector_set { v with data := d } i x = .error .IndexOutOfBounds ∧
      vector_remove { v with data := d } i = .error .IndexOutOfBounds) := by
  refine ⟨vector_get_oob_iff v i, vector_set_oob_iff v i x, vector_remove_oob_iff v i, ?_⟩
  intro h d
  exact ⟨(vector_get_oob_iff _ i).mpr h, (vector_set_oob_iff _ i x).mpr h,
    (vector_remove_oob_iff _ i).mpr h⟩

/-- Instance of C3 on the vector holding 5, 6 with `index = 2 = size`: all three
calls stop with the diagnostic, also when `data` is replaced by `NULL`. -/
theorem index_out_of_bounds_iff_witness :
    vector_get { data := some [some 5, some 6], size := 2, capacity := 2 } 2
      = .error .IndexOutOfBounds ∧
    vector_set { data := none, size := 2, capacity := 2 } 2 9 = .error .IndexOutOfBounds ∧
    vector_remove { data := none, size := 2, capacity := 2 } 2 = .error .IndexOutOfBounds :=
  ⟨(index_out_of_bounds_iff { data := some [some 5, some 6], size := 2, capacity := 2 } 2 9).1.mpr
      (by decide),
   ((index_out_of_bounds_iff { data := some [some 5, some 6], size := 2, capacity := 2 } 2
      9).2.2.2 (by decide) none).2.1,
   ((index_out_of_bounds_iff { data := some [some 5, some 6], size := 2, capacity := 2 } 2
      9).2.2.2 (by decide) none).2.2⟩

/-- C4: on a well-formed vector and an index `i < size`, `vector_set` returns
normally; afterwards `vector_get` at `i` yields the written value, `vector_get` at
every other index below `size` yields what it yielded before, and `size` and
`capacity` are unchanged.  Together with the append case (the value appended is
the one `vector_get` yields at the old `size`) this makes `vector_get` return the
value last written at an index. -/
theorem vector_set_get (v : Vector) (i : Nat) (x : Int) (h : v.WF) (hi : i < v.size) :
    (∃ v', vector_set v i x = .ok v' ∧ v'.WF ∧
      vector_get v' i = .ok x ∧
      (∀ j, j < v.size → j ≠ i → vector_get v' j = vector_get v j) ∧
      v'.size = v.size ∧ v'.capacity = v.capacity ∧
      v'.contents = v.contents.set i x) ∧
    (∃ va, vector_append v x = .ok va ∧ vector_get va v.size = .ok x ∧
      ∀ j, j < v.size → vector_get va j = vector_get v j) := by
  have hlen := h.length_contents
  constructor
  · obtain ⟨v', hset, hw, hc, hs, hcap⟩ := vector_set_layout v i x h hi
    refine ⟨v', hset, hw, ?_, ?_, hs, hcap, hc⟩
    · rw [vector_get_wf v' _ hw, hc, getSpec_set_self _ _ _ (by rw [hlen]; exact hi)]
    · intro j _ hji
      rw [vector_get_wf v' _ hw, vector_get_wf v _ h, hc,
        getSpec_set_other _ _ _ _ (fun e => hji e.symm)]
  · obtain ⟨va, hap, hw, hc, hs, -⟩ := vector_append_layout v x h
    refine ⟨va, hap, ?_, ?_⟩
    · rw [vector_get_wf va _ hw, hc, ← hlen, getSpec_append_length]
    · intro j hj
      rw [vector_get_wf va _ hw, vector_get_wf v _ h, hc,
        getSpec_append_left _ _ _ (by rw [hlen]; exact hj)]

/-- Instance of C4: writing 9 at index 1 of the vector holding 5, 6, 7 (one spare
cell). -/
theorem vector_set_get_witness :
    (∃ v', vector_set
        { data := some [some 5, some 6, some 7, none], size := 3, capacity := 4 } 1 9 = .ok v' ∧
      v'.WF ∧ vector_get v' 1 = .ok 9 ∧
      (∀ j, j < 3 → j ≠ 1 → vector_get v' j = vector_get
        { data := some [some 5, some 6, some 7, none], size := 3, capacity := 4 } j) ∧
      v'.size = 3 ∧ v'.capacity = 4 ∧
      v'.contents = (Vector.contents
        { data := some [some 5, some 6, some 7, none], size := 3, capacity := 4 }).set 1 9) ∧
    (∃ va, vector_append
        { data := some [some 5, some 6, some 7, none], size := 3, capacity := 4 } 9 = .ok va ∧
      vector_get va 3 = .ok 9 ∧
      ∀ j, j < 3 → vector_get va j = vector_get
        { data := some [some 5, some 6, some 7, none], size := 3, capacity := 4 } j) :=
  vector_set_get { data := some [some 5, some 6, some 7, none], size := 3, capacity := 4 } 1 9
    (by decide) (by decide)

/-- C5, evaluated above `INT_MAX`: merging the well-formed `bigSource`
(`INT_MAX + 2` elements: zeros and a final 1) into the one-element vector
`smallTarget` returns normally, but the counter `int i` wraps after
`INT_MAX + 1` iterations and the loop stops: the target ends with
`1 + (INT_MAX + 1)` elements, the final 1 of the source is never appended, and
the contents are not `contents(target) ++ contents(source)`. -/
theorem vector_add_above_int_max :
    smallTarget.WF ∧ bigSource.WF ∧ smallTarget.size = 1 ∧ bigSource.size = INT_MAX + 2 ∧
    ∃ v', vector_add smallTarget bigSource = .ok v' ∧
      v'.contents = [5] ++ List.replicate (INT_MAX + 1) 0 ∧
      v'.size = 1 + (INT_MAX + 1) ∧
      v'.size ≠ smallTarget.size + bigSource.size ∧
      v'.contents ≠ smallTarget.contents ++ bigSource.contents := by
  obtain ⟨hw2, hc2, hs2, -, -, -⟩ := zeros_then_facts 1 INT_MAX
  obtain ⟨hw1, hc1⟩ := mkVector_wf [5] 0
  obtain ⟨v', hadd, hw, hc⟩ := vector_add_bigSource
  have hsz : v'.size = 1 + (INT_MAX + 1) := by
    rw [← hw.length_contents, hc, List.length_append, List.length_replicate,
      List.length_singleton]
  refine ⟨hw1, hw2, rfl, hs2, v', hadd, hc, hsz, ?_, ?_⟩
  · rw [hsz, bigSource, hs2]; show _ ≠ 1 + _; omega
  · rw [hc, smallTarget, hc1, bigSource, hc2]
    exact replicate_succ_ne _ 0 1 [5]

/-- C6, evaluated above `INT_MAX`: removing the elements of the well-formed
`bigSource` (`INT_MAX + 1` zeros and a final 1) from the vector `unitTarget`
holding the single element 1 returns normally, but the counter `int i` wraps
after `INT_MAX + 1` iterations, the final 1 of the source is never looked at, and
the target keeps its 1, whereas erasing the first occurrence of every source
element in turn leaves nothing. -/
theorem vector_subtract_above_int_max :
    unitTarget.WF ∧ bigSource.WF ∧ bigSource.size = INT_MAX + 2 ∧
    (∃ v', vector_subtract unitTarget bigSource = .ok v' ∧ v'.contents = [1]) ∧
    bigSource.contents.foldl List.erase unitTarget.contents = [] := by
  obtain ⟨hw2, hc2, hs2, hcnt, htake, hbound⟩ := zeros_then_facts 1 INT_MAX
  obtain ⟨hw1, hc1⟩ := mkVector_wf [1] 0
  obtain ⟨v', hsub, -, hc, -, -⟩ := vector_subtract_counted unitTarget bigSource hw1 hw2
    (by show 1 ≤ INT_MAX + 1; omega) (by rw [bigSource, hs2]; exact hbound)
  refine ⟨hw1, hw2, hs2, ⟨v', hsub, ?_⟩, ?_⟩
  · rw [hc, unitTarget, hc1, bigSource, hs2, hcnt, hc2, htake,
      foldl_erase_replicate [1] 0 (by decide)]
  · rw [unitTarget, hc1, bigSource, hc2, List.foldl_append,
      foldl_erase_replicate [1] 0 (by decide)]
    rfl

/-- C7, evaluated above `INT_MAX`: for the well-formed vectors `bigFactor` and
`bigSource` (both `INT_MAX + 2` elements: zeros, then 3 resp. 1) `vector_multiply`
returns 0, because the counter `int i` wraps after `INT_MAX + 1` iterations and
the last pair is never multiplied, whereas the sum of all products `a[i] * b[i]`
is 3. -/
theorem vector_multiply_above_int_max :
    bigFactor.WF ∧ bigSource.WF ∧ bigFactor.size = bigSource.size ∧
    bigFactor.size = INT_MAX + 2 ∧
    vector_multiply bigFactor bigSource = .ok 0 ∧
    wrapInt (products bigFactor.contents bigSource.contents).sum = 3 := by
  obtain ⟨hw2, hc2, hs2, hcnt, -, hbound⟩ := zeros_then_facts 1 INT_MAX
  obtain ⟨hw1, hc1, hs1, -, -, -⟩ := zeros_then_facts 3 INT_MAX
  have hprod : products (List.replicate (INT_MAX + 1) 0 ++ [3])
      (List.replicate (INT_MAX + 1) 0 ++ [1])
      = products (List.replicate (INT_MAX + 1) 0) (List.replicate (INT_MAX + 1) 0) ++ [3 * 1] :=
    products_append_singleton _ _ 3 1 (by rw [List.length_replicate])
  have hplen : (products (List.replicate (INT_MAX + 1) (0 : Int))
      (List.replicate (INT_MAX + 1) 0)).length = INT_MAX + 1 := by
    unfold products
    rw [List.length_zipWith, List.length_replicate, Nat.min_self]
  refine ⟨hw1, hw2, hs1.trans hs2.symm, hs1, ?_, ?_⟩
  · rw [vector_multiply_counted bigFactor bigSource hw1 hw2 (hs1.trans hs2.symm)
      (by rw [bigFactor, hs1]; exact hbound)]
    rw [bigFactor, hs1, hcnt, hc1, bigSource, hc2, hprod, List.take_left' hplen,
      products_zeros, wrapInt_zero]
  · rw [bigFactor, hc1, bigSource, hc2, hprod, List.sum_append, products_zeros]
    decide

/-- C8: `vector_multiply` stops with the "Vectors must have the same size"
diagnostic exactly when the two sizes differ.  In that case the outcome is the
same whatever the two `data` fields are (also `NULL`): the test comes before any
element is read and no number is returned. -/
theorem vector_multiply_length_mismatch (a b : Vector) :
    (vector_multiply a b = .error .LengthMismatch ↔ a.size ≠ b.size) ∧
    (a.size ≠ b.size → ∀ d1 d2 : Option (List Cell),
      vector_multiply { a with data := d1 } { b with data := d2 } = .error .LengthMismatch) := by
  refine ⟨vector_multiply_mismatch_iff a b, ?_⟩
  intro h d1 d2
  exact (vector_multiply_mismatch_iff _ _).mpr h

/-- Instance of C8 on vectors of sizes 2 and 1. -/
theorem vector_multiply_length_mismatch_witness :
    vector_multiply { data := some [some 5, some 6], size := 2, capacity := 2 }
      { data := some [some 7], size := 1, capacity := 1 } = .error .LengthMismatch :=
  (vector_multiply_length_mismatch { data := some [some 5, some 6], size := 2, capacity := 2 }
    { data := some [some 7], size := 1, capacity := 1 }).1.mpr (by decide)

/-- C9: on a well-formed vector `vector_sum` returns the sum of the contents, that
is of the cells at indices `0 .. size - 1`, in `int` arithmetic (the exact sum
whenever it fits an `int`); it returns 0 when `size = 0`; and the result is the
same for any two well-formed vectors with the same contents, whatever their spare
cells between `size` and `capacity` hold, unwritten cells included.  The function
only returns a number: the vector is not modified. -/
theorem vector_sum_correct (a : Vector) (h : a.WF) :
    vector_sum a = .ok (wrapInt a.contents.sum) ∧
    (-2147483648 ≤ a.contents.sum → a.contents.sum ≤ 2147483647 →
      vector_sum a = .ok a.contents.sum) ∧
    (a.size = 0 → vector_sum a = .ok 0) ∧
    (∀ b : Vector, b.WF → b.contents = a.contents → vector_sum b = vector_sum a) := by
  have hs := vector_sum_values a h
  refine ⟨hs, ?_, ?_, ?_⟩
  · intro h1 h2; rw [hs, wrapInt_of_fits _ h1 h2]
  · intro h0; rw [hs, contents_eq_nil a h0, List.sum_nil, wrapInt_zero]
  · intro b hb hc; rw [hs, vector_sum_values b hb, hc]

/-- Instance of C9: the vector holding 10, 20, 30 in a block of four cells, the
last of them never written. -/
theorem vector_sum_correct_witness :
    vector_sum { data := some [some 10, some 20, some 30, none], size := 3, capacity := 4 }
      = .ok 60 :=
  ((vector_sum_correct
    { data := some [some 10, some 20, some 30, none], size := 3, capacity := 4 }
    (by decide)).1).trans (congrArg Except.ok (by decide))

/-- C10, evaluated above `INT_MAX`: `smallTarget` holds 5 and `bigSource` holds
`INT_MAX + 1` zeros and a final 1, so no value occurs in both.  `vector_sum`
yields 5 and 1 for them, but after `vector_add` has merged `bigSource` into
`smallTarget` the sum of the target is still 5, not `5 + 1`: the counter `int i`
of `vector_add` wrapped before the final 1 was appended. -/
theorem vector_sum_add_above_int_max :
    smallTarget.WF ∧ bigSource.WF ∧
    (∀ x, x ∈ smallTarget.contents → x ∉ bigSource.contents) ∧
    vector_sum smallTarget = .ok 5 ∧ vector_sum bigSource = .ok 1 ∧
    ∃ v', vector_add smallTarget bigSource = .ok v' ∧ vector_sum v' = .ok 5 ∧
      wrapInt (5 + 1) ≠ 5 := by
  obtain ⟨hw2, hc2, -, -, -, -⟩ := zeros_then_facts 1 INT_MAX
  obtain ⟨hw1, hc1⟩ := mkVector_wf [5] 0
  obtain ⟨v', hadd, hw, hc⟩ := vector_add_bigSource
  refine ⟨hw1, hw2, ?_, ?_, ?_, v', hadd, ?_, by decide⟩
  · intro x hx
    rw [smallTarget, hc1, List.mem_singleton] at hx
    rw [bigSource, hc2, hx, List.mem_append, List.mem_replicate, List.mem_singleton]
    intro h
    rcases h with ⟨-, h⟩ | h <;> cases h
  · rw [smallTarget, vector_sum_values _ hw1, hc1]; rfl
  · rw [bigSource, vector_sum_values _ hw2, hc2, List.sum_append, sum_replicate_zero]; rfl
  · rw [vector_sum_values _ hw, hc, List.sum_append, sum_replicate_zero]; rfl

/-- C13: the run of `main` fails nowhere and prints: vector 1 as 10 20 30, vector 2
as 40 50 60, vector 1 after the merge as 10 20 30 40 50 60 and after the removal
as 10 20 30 again, the product 3200, the sums 60 and 150, the second element of
vector 1 as 20 and the third element of vector 2 as 60. -/
theorem main_output :
    main = .ok { vector1 := [10, 20, 30], vector2 := [40, 50, 60],
                 afterAdd := [10, 20, 30, 40, 50, 60], afterSubtract := [10, 20, 30],
                 multiply := 3200, sum1 := 60, sum2 := 150, second := 20, third := 60 } := by
  rfl

/-- C16: `vector_init` yields size 0, capacity 0 and `data = NULL`; `vector_free`
of any vector yields exactly that state, so freeing twice gives the same state as
freeing once. -/
theorem vector_init_free_state (v : Vector) :
    vector_init.size = 0 ∧ vector_init.capacity = 0 ∧ vector_init.data = none ∧
    (vector_free v).size = 0 ∧ (vector_free v).capacity = 0 ∧ (vector_free v).data = none ∧
    vector_free v = vector_init ∧
    vector_free (vector_free v) = vector_free v :=
  ⟨rfl, rfl, rfl, rfl, rfl, rfl, rfl, rfl⟩

/-- C15: on a well-formed vector (so `size ≤ capacity`) `vector_append` returns
normally; if the block was full the new capacity is `max 1 (2 * capacity)`, that
is 1 when it was 0 and the double otherwise, and if there was a spare cell the
capacity is unchanged. -/
theorem vector_append_capacity (v : Vector) (x : Int) (h : v.WF) :
    ∃ v', vector_append v x = .ok v' ∧
      (v.size = v.capacity → v'.capacity = max 1 (2 * v.capacity)) ∧
      (v.size = v.capacity → v.capacity = 0 → v'.capacity = 1) ∧
      (v.size = v.capacity → v.capacity ≠ 0 → v'.capacity = 2 * v.capacity) ∧
      (v.size < v.capacity → v'.capacity = v.capacity) := by
  obtain ⟨v', hap, -, -, -, hcap⟩ := vector_append_layout v x h
  refine ⟨v', hap, ?_, ?_, ?_, ?_⟩
  · intro hf; rw [hcap, grownCapacity_full v hf]
  · intro hf h0; rw [hcap, grownCapacity_full v hf, h0]; rfl
  · intro hf h0; rw [hcap, grownCapacity_full v hf]; omega
  · intro hs; rw [hcap, grownCapacity_spare v hs]

/-- Instance of C15 on a full block of two cells and on a block with a spare cell. -/
theorem vector_append_capacity_witness :
    (∃ v', vector_append { data := some [some 5, some 6], size := 2, capacity := 2 } 7 = .ok v' ∧
      v'.capacity = 4) ∧
    (∃ v', vector_append { data := some [some 5, none], size := 1, capacity := 2 } 7 = .ok v' ∧
      v'.capacity = 2) := by
  constructor
  · obtain ⟨v', h1, -, -, h2, -⟩ :=
      vector_append_capacity { data := some [some 5, some 6], size := 2, capacity := 2 } 7
        (by decide)
    exact ⟨v', h1, h2 rfl (by decide)⟩
  · obtain ⟨v', h1, -, -, -, h2⟩ :=
      vector_append_capacity { data := some [some 5, none], size := 1, capacity := 2 } 7
        (by decide)
    exact ⟨v', h1, h2 (by decide)⟩

/-- C14: `size ≤ capacity` holds for the vector `vector_init` produces; each of
`vector_append`, `vector_set`, `vector_remove`, `vector_add`, `vector_subtract`
(on its target) and `vector_free` hands back a vector with `size ≤ capacity`
whenever it is given one; hence `size ≤ capacity` in every state reachable from
`vector_init` by these operations. -/
theorem size_le_capacity_invariant :
    vector_init.size ≤ vector_init.capacity ∧
    (∀ (v v' : Vector) (x : Int), v.size ≤ v.capacity → vector_append v x = .ok v' →
      v'.size ≤ v'.capacity) ∧
    (∀ (v v' : Vector) (i : Nat) (x : Int), v.size ≤ v.capacity → vector_set v i x = .ok v' →
      v'.size ≤ v'.capacity) ∧
    (∀ (v v' : Vector) (i : Nat), v.size ≤ v.capacity → vector_remove v i = .ok v' →
      v'.size ≤ v'.capacity) ∧
    (∀ (v1 v2 v' : Vector), v1.size ≤ v1.capacity → vector_add v1 v2 = .ok v' →
      v'.size ≤ v'.capacity) ∧
    (∀ (v1 v2 v' : Vector), v1.size ≤ v1.capacity → vector_subtract v1 v2 = .ok v' →
      v'.size ≤ v'.capacity) ∧
    (∀ v : Vector, (vector_free v).size ≤ (vector_free v).capacity) ∧
    (∀ v : Vector, Reachable v → v.size ≤ v.capacity) := by
  refine ⟨le_refl _, ?_, ?_, ?_, ?_, ?_, fun _ => le_refl _, reachable_size_le⟩
  · intro v v' x hinv hap
    obtain ⟨hs, hc⟩ := vector_append_shape _ _ _ hap
    rw [hs, hc]; exact grownCapacity_gt v hinv
  · intro v v' i x hinv hset
    obtain ⟨hs, hc⟩ := vector_set_shape _ _ _ _ hset
    rw [hs, hc]; exact hinv
  · intro v v' i hinv hrm
    obtain ⟨hs, hc, -⟩ := vector_remove_shape _ _ _ hrm
    rw [hs, hc]; omega
  · intro v1 v2 v' hinv hadd
    exact add_loop_shape _ _ _ _ _ hinv hadd
  · intro v1 v2 v' hinv hsub
    obtain ⟨hc, hs, -⟩ := vector_subtract_shape _ _ _ hsub
    rw [hc]; omega

/-- C18: for every non-empty list of `n` values, appending them one after the
other to the vector `vector_init` produces returns normally and leaves a capacity
that is a power of two, is at least `n`, and is at most every power of two that is
at least `n`; and in every state reachable from `vector_init` by `vector_append`,
`vector_set` and `vector_remove` the capacity is 0 or a power of two. -/
theorem capacity_power_of_two :
    (∀ l : List Int, 1 ≤ l.length →
      ∃ v k, append_all vector_init l = .ok v ∧ v.size = l.length ∧ v.capacity = 2 ^ k ∧
        l.length ≤ 2 ^ k ∧ ∀ j, l.length ≤ 2 ^ j → 2 ^ k ≤ 2 ^ j) ∧
    (∀ v : Vector, CoreReachable v → v.capacity = 0 ∨ ∃ k, v.capacity = 2 ^ k) := by
  refine ⟨?_, core_reachable_capacity⟩
  intro l hl
  obtain ⟨v, hall, -, ht, hs, -⟩ :=
    append_all_tight l vector_init (by decide) (Or.inl ⟨rfl, rfl⟩)
  have hsz : v.size = l.length := by rw [hs]; show 0 + _ = _; omega
  rcases ht with ⟨h0, -⟩ | ⟨k, hk, hle, hlt⟩
  · omega
  · refine ⟨v, k, hall, hsz, hk, by omega, ?_⟩
    intro j hj
    exact pow_two_least k j l.length (by omega) hj

/-- Instance of C18: five appends leave capacity 8; and the state after an append,
a set and a remove has capacity 1. -/
theorem capacity_power_of_two_witness :
    (∃ v k, append_all vector_init [1, 2, 3, 4, 5] = .ok v ∧ v.size = 5 ∧ v.capacity = 2 ^ k ∧
      5 ≤ 2 ^ k ∧ ∀ j, 5 ≤ 2 ^ j → 2 ^ k ≤ 2 ^ j) ∧
    (Vector.capacity { data := some [some 9], size := 0, capacity := 1 } = 0 ∨
      ∃ k, Vector.capacity { data := some [some 9], size := 0, capacity := 1 } = 2 ^ k) :=
  ⟨capacity_power_of_two.1 [1, 2, 3, 4, 5] (by decide),
   capacity_power_of_two.2 { data := some [some 9], size := 0, capacity := 1 }
     (CoreReachable.remove (mkVector [9] 0) _ 0
       (CoreReachable.set (mkVector [7] 0) _ 0 9
         (CoreReachable.append vector_init _ 7 CoreReachable.init rfl) rfl) rfl)⟩

/-- Instance of C14: appending to a full block of two cells gives size 3 in a block
of four cells, and the vector built by `main` is reachable. -/
theorem size_le_capacity_invariant_witness :
    Vector.size { data := some [some 5, some 6, some 7, none], size := 3, capacity := 4 }
      ≤ Vector.capacity { data := some [some 5, some 6, some 7, none], size := 3, capacity := 4 } ∧
    (mkVector [7] 0).size ≤ (mkVector [7] 0).capacity :=
  ⟨size_le_capacity_invariant.2.1 { data := some [some 5, some 6], size := 2, capacity := 2 }
      _ 7 (by decide) rfl,
   size_le_capacity_invariant.2.2.2.2.2.2.2 (mkVector [7] 0)
     (Reachable.append vector_init _ 7 Reachable.init rfl)⟩

/-- C11: for well-formed vectors whose blocks fit the address space, if no source
value occurs in the target then `vector_subtract` returns the target exactly as it
was (same block, `size` and `capacity`); and, for one source element, if it has no
equal in the target the inner scan returns the target exactly as it was. -/
theorem vector_subtract_absent (v1 v2 : Vector) (h1 : v1.WF) (h2 : v2.WF)
    (ha1 : v1.Addressable) (ha2 : v2.Addressable) :
    ((∀ b, b ∈ v2.contents → b ∉ v1.contents) → vector_subtract v1 v2 = .ok v1) ∧
    (∀ (i : Int) (b : Int), vector_get v2 (toSizeT i) = .ok b → b ∉ v1.contents →
      subtract_inner (v1.size + 1) 0 i v1 v2 = .ok v1) := by
  have hs1 := h1.size_le_limit ha1
  have hs2 := h2.size_le_limit ha2
  constructor
  · intro hne
    apply vector_subtract_nomatch v1 v2 h1 h2 hs1 hs2
    intro b hb a ha hab
    exact hne b (List.mem_of_mem_take hb) (hab ▸ List.mem_of_mem_take ha)
  · intro i b hget hb
    apply subtract_inner_nomatch v1 v2 i b h1 hs1 hget
    intro a ha hab
    exact hb (hab ▸ List.mem_of_mem_take ha)

/-- Instance of C11: removing 7, 8 from the vector holding 1, 2 (two spare cells). -/
theorem vector_subtract_absent_witness :
    vector_subtract { data := some [some 1, some 2, none, none], size := 2, capacity := 4 }
        { data := some [some 7, some 8], size := 2, capacity := 2 }
      = .ok { data := some [some 1, some 2, none, none], size := 2, capacity := 4 } :=
  (vector_subtract_absent
    { data := some [some 1, some 2, none, none], size := 2, capacity := 4 }
    { data := some [some 7, some 8], size := 2, capacity := 2 }
    (by decide) (by decide) (by decide) (by decide)).1 (by decide)

/-- C12, evaluated above `INT_MAX`: `bigZeros` (`INT_MAX + 1` zeros) and
`unitTarget` (the single element 1) are well-formed and no value of `unitTarget`
occurs in `bigZeros`.  Merging `unitTarget` into `bigZeros` and then removing the
elements of `unitTarget` returns normally both times, but the 1 is still there
afterwards: the contents are `INT_MAX + 1` zeros followed by 1, not the contents
of `bigZeros`. -/
theorem round_trip_above_int_max :
    bigZeros.WF ∧ unitTarget.WF ∧
    (∀ x, x ∈ unitTarget.contents → x ∉ bigZeros.contents) ∧
    ∃ m r, vector_add bigZeros unitTarget = .ok m ∧ vector_subtract m unitTarget = .ok r ∧
      r.contents = List.replicate (INT_MAX + 1) 0 ++ [1] ∧
      r.contents ≠ bigZeros.contents := by
  obtain ⟨hwz, hcz, -⟩ := bigZeros_facts
  obtain ⟨hwu, hcu⟩ := mkVector_wf [1] 0
  obtain ⟨m, hadd, -, hcm, hsub⟩ := round_trip_bigZeros
  refine ⟨hwz, hwu, ?_, m, m, hadd, hsub, hcm, ?_⟩
  · intro x hx hz
    rw [unitTarget, hcu, List.mem_singleton] at hx
    rw [hcz, hx] at hz
    exact absurd (List.mem_replicate.mp hz).2 (by decide)
  · rw [hcm, hcz]
    intro h
    have := congrArg List.length h
    rw [List.length_append, List.length_replicate, List.length_singleton] at this
    omega

/-- C20, evaluated above `INT_MAX`: for the well-formed vectors `bigZeros`
(`INT_MAX + 1` zeros) and `unitTarget` (the single element 1), merging
`unitTarget` into `bigZeros` and then removing the elements of `unitTarget`
returns normally both times and leaves `INT_MAX + 2` elements, one more than
`bigZeros` has, so the result is not a permutation of the contents of
`bigZeros`. -/
theorem round_trip_perm_above_int_max :
    bigZeros.WF ∧ unitTarget.WF ∧ bigZeros.size = INT_MAX + 1 ∧
    ∃ m r, vector_add bigZeros unitTarget = .ok m ∧ vector_subtract m unitTarget = .ok r ∧
      r.size = INT_MAX + 2 ∧ r.size ≠ bigZeros.size ∧
      ¬ r.contents.Perm bigZeros.contents := by
  obtain ⟨hwz, hcz, hsz⟩ := bigZeros_facts
  obtain ⟨hwu, -⟩ := mkVector_wf [1] 0
  obtain ⟨m, hadd, hwm, hcm, hsub⟩ := round_trip_bigZeros
  have hms : m.size = INT_MAX + 2 := by
    rw [← hwm.length_contents, hcm, List.length_append, List.length_replicate,
      List.length_singleton]
  refine ⟨hwz, hwu, hsz, m, m, hadd, hsub, hms, by rw [hms, hsz]; omega, ?_⟩
  intro hp
  have := hp.length_eq
  rw [hwm.length_contents, hwz.length_contents, hms, hsz] at this
  omega

end TranslationMethods
